import Mathlib

/-!
Verification of the incremental-compilation and UMD-rendering core of the
repository.  Each section embeds one source component:

* `IncrementalState` from `packages/compiler-cli/src/ngtsc/incremental/src/state.ts`
* the inject-implementation swap from the dependency-injection excerpt
* `UmdRenderingFormatter` and its helper functions from the ngcc rendering excerpt
* the `EsmDependencyHost` dependency walker (its implementation file is not part
  of the excerpt, only its tests; it is modelled from the specification)

JavaScript `Set` values are embedded as insertion-ordered duplicate-free lists,
JavaScript `Map` values as insertion-ordered association lists.
-/

section IncrementalStateEmbedding

/-- Model of a `ts.SourceFile`: identity is the file, plus the
`isDeclarationFile` flag read by `reconcile`. -/
structure SourceFile where
  fileName : Nat
  isDeclarationFile : Bool
deriving DecidableEq, Repr

/-- JS `Set.add`: append when not already present (insertion order kept). -/
def setAdd (s : List SourceFile) (f : SourceFile) : List SourceFile :=
  if f ∈ s then s else s ++ [f]

/-- `new Set(xs)`: deduplicate keeping first occurrences. -/
def toSet (xs : List SourceFile) : List SourceFile :=
  xs.foldl setAdd []

/-- JS `Map.get`. -/
def mapGet {κ α : Type} [DecidableEq κ] (m : List (κ × α)) (k : κ) : Option α :=
  (m.find? (fun e => decide (e.1 = k))).map (·.2)

/-- JS `Map.set`: overwrite in place when the key exists, else append. -/
def mapSet {κ α : Type} [DecidableEq κ] (m : List (κ × α)) (k : κ) (v : α) :
    List (κ × α) :=
  match m with
  | [] => [(k, v)]
  | e :: rest => if e.1 = k then (k, v) :: rest else e :: mapSet rest k v

/-- Model of a `ClassDeclaration` node; `sourceFile` is `node.getSourceFile()`. -/
structure ClassDeclaration where
  declId : Nat
  sourceFile : SourceFile
deriving DecidableEq, Repr

/-- Model of `Reference<ClassDeclaration>`. -/
structure Reference where
  node : ClassDeclaration
deriving DecidableEq, Repr

/-- Model of `DirectiveMeta` (payload abstracted to a number). -/
structure DirectiveMeta where
  ref : Reference
  data : Nat
deriving DecidableEq, Repr

/-- Model of `NgModuleMeta`. -/
structure NgModuleMeta where
  ref : Reference
  data : Nat
deriving DecidableEq, Repr

/-- Model of `PipeMeta`. -/
structure PipeMeta where
  ref : Reference
  data : Nat
deriving DecidableEq, Repr

/-- `FileMetadata` from `state.ts`: a set of file dependencies plus three
per-class-declaration metadata maps. -/
structure FileMetadata where
  fileDependencies : List SourceFile
  directiveMeta : List (ClassDeclaration × DirectiveMeta)
  ngModuleMeta : List (ClassDeclaration × NgModuleMeta)
  pipeMeta : List (ClassDeclaration × PipeMeta)
deriving DecidableEq, Repr

/-- `new FileMetadata()`. -/
def FileMetadata.new : FileMetadata := ⟨[], [], [], []⟩

/-- `IncrementalState` from `state.ts`. -/
structure IncrementalState where
  unchangedFiles : List SourceFile
  metadata : List (SourceFile × FileMetadata)
deriving DecidableEq, Repr

/-- A `ts.Program`, of which `reconcile` only uses `getSourceFiles()`. -/
structure Program where
  sourceFiles : List SourceFile
deriving DecidableEq, Repr

/-- `IncrementalState.fresh()`. -/
def IncrementalState.fresh : IncrementalState := ⟨[], []⟩

/-- `getFileDependencies`: the recorded dependency set of a file, or `[]`. -/
def IncrementalState.getFileDependencies (s : IncrementalState) (file : SourceFile) :
    List SourceFile :=
  match mapGet s.metadata file with
  | some meta => meta.fileDependencies
  | none => []

/-- `safeToSkip`: membership in `unchangedFiles`. -/
def IncrementalState.safeToSkip (s : IncrementalState) (sf : SourceFile) : Bool :=
  decide (sf ∈ s.unchangedFiles)

/-- `getDirectiveMetadata`. -/
def IncrementalState.getDirectiveMetadata (s : IncrementalState) (ref : Reference) :
    Option DirectiveMeta :=
  match mapGet s.metadata ref.node.sourceFile with
  | some metadata => mapGet metadata.directiveMeta ref.node
  | none => none

/-- `getNgModuleMetadata`. -/
def IncrementalState.getNgModuleMetadata (s : IncrementalState) (ref : Reference) :
    Option NgModuleMeta :=
  match mapGet s.metadata ref.node.sourceFile with
  | some metadata => mapGet metadata.ngModuleMeta ref.node
  | none => none

/-- `getPipeMetadata`. -/
def IncrementalState.getPipeMetadata (s : IncrementalState) (ref : Reference) :
    Option PipeMeta :=
  match mapGet s.metadata ref.node.sourceFile with
  | some metadata => mapGet metadata.pipeMeta ref.node
  | none => none

/-- The loop body of `IncrementalState.reconcile`: iterate over
`newProgram.getSourceFiles()` accumulating `unchangedFiles` and `metadata`;
a declaration file absent from `oldFiles` aborts with `fresh()`. -/
def reconcileGo (previousState : IncrementalState)
    (oldFiles newFiles : List SourceFile) :
    List SourceFile → List SourceFile → List (SourceFile × FileMetadata) →
    IncrementalState
  | [], unchanged, md => ⟨unchanged, md⟩
  | newFile :: rest, unchanged, md =>
    if newFile ∈ oldFiles then
      if (previousState.getFileDependencies newFile).all
          (fun oldDep => decide (oldDep ∈ newFiles)) then
        let md' := match mapGet previousState.metadata newFile with
          | some meta => mapSet md newFile meta
          | none => md
        reconcileGo previousState oldFiles newFiles rest (setAdd unchanged newFile) md'
      else
        reconcileGo previousState oldFiles newFiles rest unchanged md
    else if newFile.isDeclarationFile then
      IncrementalState.fresh
    else
      reconcileGo previousState oldFiles newFiles rest unchanged md

/-- `IncrementalState.reconcile(previousState, oldProgram, newProgram)`. -/
def IncrementalState.reconcile (previousState : IncrementalState)
    (oldProgram newProgram : Program) : IncrementalState :=
  reconcileGo previousState (toSet oldProgram.sourceFiles)
    (toSet newProgram.sourceFiles) newProgram.sourceFiles [] []

/-- First-match Option choice, used to state the metadata characterization. -/
def optOr {α : Type} (a b : Option α) : Option α :=
  match a with
  | some v => some v
  | none => b

/-- The unchanged-file criterion of `reconcile`, for file sets given as lists. -/
def unchangedCrit (previousState : IncrementalState)
    (oldFiles newFiles : List SourceFile) (f : SourceFile) : Prop :=
  f ∈ oldFiles ∧ ∀ d ∈ previousState.getFileDependencies f, d ∈ newFiles

instance (previousState : IncrementalState) (oldFiles newFiles : List SourceFile)
    (f : SourceFile) : Decidable (unchangedCrit previousState oldFiles newFiles f) := by
  unfold unchangedCrit; infer_instance

/-!
To express that `reconcile` never mutates its `previousState` argument and
always returns a new `IncrementalState` object, object identity is modelled by
references into a store of states.  `reconcile` only ever reads from the
previous state (`getFileDependencies`, `metadata.get`) and ends in
`new IncrementalState(...)` or `IncrementalState.fresh()`, so the store
operation reads the previous entry and appends a fresh one.
-/

/-- A heap of `IncrementalState` objects, keyed by reference. -/
abbrev StateStore : Type := List (Nat × IncrementalState)

/-- A reference unused by the store (allocation of a new object). -/
def freshRef (store : StateStore) : Nat :=
  (List.map (fun e => e.1) store).foldr max 0 + 1

/-- `reconcile` acting on the store: read the previous state through its
reference, compute the new state, and install it under a fresh reference.
`none` models a dangling reference. -/
def reconcileInStore (store : StateStore) (prevRef : Nat)
    (oldProgram newProgram : Program) : Option (StateStore × Nat) :=
  match mapGet store prevRef with
  | none => none
  | some prev =>
    some (store ++ [(freshRef store,
      IncrementalState.reconcile prev oldProgram newProgram)], freshRef store)

/-- `safeToSkip` observed through a reference. -/
def storeSafeToSkip (store : StateStore) (ref : Nat) (sf : SourceFile) :
    Option Bool :=
  (mapGet store ref).map (fun s => s.safeToSkip sf)

/-- `getFileDependencies` observed through a reference. -/
def storeGetFileDependencies (store : StateStore) (ref : Nat) (f : SourceFile) :
    Option (List SourceFile) :=
  (mapGet store ref).map (fun s => s.getFileDependencies f)

/-- `getDirectiveMetadata` observed through a reference. -/
def storeGetDirectiveMetadata (store : StateStore) (ref : Nat) (r : Reference) :
    Option (Option DirectiveMeta) :=
  (mapGet store ref).map (fun s => s.getDirectiveMetadata r)

/-- `getNgModuleMetadata` observed through a reference. -/
def storeGetNgModuleMetadata (store : StateStore) (ref : Nat) (r : Reference) :
    Option (Option NgModuleMeta) :=
  (mapGet store ref).map (fun s => s.getNgModuleMetadata r)

/-- `getPipeMetadata` observed through a reference. -/
def storeGetPipeMetadata (store : StateStore) (ref : Nat) (r : Reference) :
    Option (Option PipeMeta) :=
  (mapGet store ref).map (fun s => s.getPipeMetadata r)

end IncrementalStateEmbedding

section InjectImplementationEmbedding

/-- Model of the inject-implementation function type
`<T>(token, flags?) => T | null` (tokens and results abstracted to numbers). -/
def InjectImplementation : Type := Nat → Option Nat

/-- `getInjectImplementation()`: read the (explicitly threaded) pointer
`_injectImplementation`. -/
def getInjectImplementation (state : Option InjectImplementation) :
    Option InjectImplementation :=
  state

/-- `setInjectImplementation(impl)`: save the previous pointer value, install
`impl`, and return the previous value; the pair is (returned value, new
state). -/
def setInjectImplementation (impl : Option InjectImplementation)
    (state : Option InjectImplementation) :
    Option InjectImplementation × Option InjectImplementation :=
  (state, impl)

end InjectImplementationEmbedding

section UmdEmbedding

/-- Operator token kinds distinguished by the UMD structural pattern checks:
`&&`, the comma operator, and everything else. -/
inductive OpKind where
  | ampAmp
  | commaTok
  | otherOp
deriving DecidableEq, Repr

/-- A parameter of a function expression, with its source positions. -/
structure Param where
  name : String
  pos : Nat
  endPos : Nat
deriving DecidableEq, Repr

mutual
/-- Model of the `ts.Node` fragment that the UMD formatter inspects.  Every
node carries its `getStart()` and `getEnd()` offsets.  `otherNode` stands for
any construct the formatter does not distinguish, keeping its children for
traversal. -/
inductive Node where
  | identifier (pos endPos : Nat) (text : String)
  | stringLit (pos endPos : Nat) (text : String)
  | typeofExpr (pos endPos : Nat) (expression : Node)
  | binary (pos endPos : Nat) (left : Node) (op : OpKind) (right : Node)
  | conditional (pos endPos : Nat) (condition whenTrue whenFalse : Node)
  | call (pos endPos : Nat) (expression : Node) (args : NodeList)
  | arrayLit (pos endPos : Nat) (elements : NodeList)
  | paren (pos endPos : Nat) (expression : Node)
  | functionExpr (pos endPos : Nat) (parameters : List Param) (body : Node)
  | block (pos endPos : Nat) (statements : NodeList)
  | exprStatement (pos endPos : Nat) (expression : Node)
  | otherNode (pos endPos : Nat) (children : NodeList)

/-- Lists of nodes (call arguments, array elements, statements). -/
inductive NodeList where
  | nil
  | cons (hd : Node) (tl : NodeList)
end

/-- `getEnd()`. -/
def Node.getEnd : Node → Nat
  | .identifier _ e _ => e
  | .stringLit _ e _ => e
  | .typeofExpr _ e _ => e
  | .binary _ e _ _ _ => e
  | .conditional _ e _ _ _ => e
  | .call _ e _ _ => e
  | .arrayLit _ e _ => e
  | .paren _ e _ => e
  | .functionExpr _ e _ _ => e
  | .block _ e _ => e
  | .exprStatement _ e _ => e
  | .otherNode _ e _ => e

/-- `getStart()`. -/
def Node.getStart : Node → Nat
  | .identifier s _ _ => s
  | .stringLit s _ _ => s
  | .typeofExpr s _ _ => s
  | .binary s _ _ _ _ => s
  | .conditional s _ _ _ _ => s
  | .call s _ _ _ => s
  | .arrayLit s _ _ => s
  | .paren s _ _ => s
  | .functionExpr s _ _ _ => s
  | .block s _ _ => s
  | .exprStatement s _ _ => s
  | .otherNode s _ _ => s

/-- `list[i]` on a node list. -/
def NodeList.get? : NodeList → Nat → Option Node
  | .nil, _ => none
  | .cons h _, 0 => some h
  | .cons _ t, n + 1 => t.get? n

/-- `list[0]`. -/
def NodeList.head? (l : NodeList) : Option Node := l.get? 0

/-- `list[list.length - 1]` (last statement). -/
def NodeList.getLast? : NodeList → Option Node
  | .nil => none
  | .cons h .nil => some h
  | .cons _ (.cons h t) => NodeList.getLast? (.cons h t)

/-- First defined of two traversal results (`forEachChild` combination). -/
def orO (a b : Option Node) : Option Node :=
  match a with
  | some r => some r
  | none => b

mutual
/-- `find(node, test)` from the UMD formatter: test the node itself, then
recurse into its children in syntactic order, returning the first match.  The
predicate also receives the chain of ancestors (innermost first), standing for
the parent links of a parsed tree. -/
def findNode (p : Node → List Node → Bool) (anc : List Node) : Node → Option Node
  | .identifier po en t =>
    if p (.identifier po en t) anc then some (.identifier po en t) else none
  | .stringLit po en t =>
    if p (.stringLit po en t) anc then some (.stringLit po en t) else none
  | .typeofExpr po en e =>
    if p (.typeofExpr po en e) anc then some (.typeofExpr po en e)
    else findNode p (.typeofExpr po en e :: anc) e
  | .binary po en l op r =>
    if p (.binary po en l op r) anc then some (.binary po en l op r)
    else orO (findNode p (.binary po en l op r :: anc) l)
      (findNode p (.binary po en l op r :: anc) r)
  | .conditional po en c t f =>
    if p (.conditional po en c t f) anc then some (.conditional po en c t f)
    else orO (findNode p (.conditional po en c t f :: anc) c)
      (orO (findNode p (.conditional po en c t f :: anc) t)
        (findNode p (.conditional po en c t f :: anc) f))
  | .call po en e args =>
    if p (.call po en e args) anc then some (.call po en e args)
    else orO (findNode p (.call po en e args :: anc) e)
      (findNodeList p (.call po en e args :: anc) args)
  | .arrayLit po en els =>
    if p (.arrayLit po en els) anc then some (.arrayLit po en els)
    else findNodeList p (.arrayLit po en els :: anc) els
  | .paren po en e =>
    if p (.paren po en e) anc then some (.paren po en e)
    else findNode p (.paren po en e :: anc) e
  | .functionExpr po en ps b =>
    if p (.functionExpr po en ps b) anc then some (.functionExpr po en ps b)
    else findNode p (.functionExpr po en ps b :: anc) b
  | .block po en sts =>
    if p (.block po en sts) anc then some (.block po en sts)
    else findNodeList p (.block po en sts :: anc) sts
  | .exprStatement po en e =>
    if p (.exprStatement po en e) anc then some (.exprStatement po en e)
    else findNode p (.exprStatement po en e :: anc) e
  | .otherNode po en cs =>
    if p (.otherNode po en cs) anc then some (.otherNode po en cs)
    else findNodeList p (.otherNode po en cs :: anc) cs

/-- Traverse a node list, returning the first match. -/
def findNodeList (p : Node → List Node → Bool) (anc : List Node) :
    NodeList → Option Node
  | .nil => none
  | .cons c cs => orO (findNode p anc c) (findNodeList p anc cs)
end

/-- `isTypeOf(node, ...types)`: the node is a binary expression whose left side
is `typeof <id>` for one of the given identifiers. -/
def isTypeOf (node : Node) (types : List String) : Bool :=
  match node with
  | .binary _ _ (.typeofExpr _ _ (.identifier _ _ t)) _ _ => types.contains t
  | _ => false

/-- `isCommonJSConditional`: a conditional whose condition is an `&&` binary
expression with a `typeof exports`/`typeof module` test on one side, and whose
true branch is a call to the identifier `factory`.  (The extra ancestors
argument mirrors the traversal interface and is unused.) -/
def isCommonJSConditional (value : Node) (_anc : List Node) : Bool :=
  match value with
  | .conditional _ _ cond whenTrue _ =>
    (match cond with
     | .binary _ _ l op r =>
       decide (op = OpKind.ampAmp) &&
         (isTypeOf l ["exports", "module"] || isTypeOf r ["exports", "module"])
     | _ => false) &&
    (match whenTrue with
     | .call _ _ (.identifier _ _ t) _ => decide (t = "factory")
     | _ => false)
  | _ => false

/-- `isAmdConditional`: a conditional whose condition is an `&&` binary
expression with a `typeof define` test on one side, and whose true branch is a
call to the identifier `define`. -/
def isAmdConditional (value : Node) (_anc : List Node) : Bool :=
  match value with
  | .conditional _ _ cond whenTrue _ =>
    (match cond with
     | .binary _ _ l op r =>
       decide (op = OpKind.ampAmp) &&
         (isTypeOf l ["define"] || isTypeOf r ["define"])
     | _ => false) &&
    (match whenTrue with
     | .call _ _ (.identifier _ _ t) _ => decide (t = "define")
     | _ => false)
  | _ => false

/-- `isCommaExpression`. -/
def isCommaExpression (value : Node) : Bool :=
  match value with
  | .binary _ _ _ op _ => decide (op = OpKind.commaTok)
  | _ => false

end UmdEmbedding

deriving instance DecidableEq for Node
deriving instance DecidableEq for NodeList

section UmdEmbeddingTwo

/-- `isGlobalFactoryCall`: a call expression that, after optionally moving up
to an enclosing comma list and then an enclosing parenthesized expression, is
the false branch of a conditional.  The ancestors list supplies the parent
links (innermost first); a missing parent makes the check fail, as it does on
any tree where the chain ends. -/
def isGlobalFactoryCall (value : Node) (anc : List Node) : Bool :=
  match value with
  | .call po en e args =>
    match anc with
    | [] => false
    | parent :: rest =>
      -- Be resilient to the value being part of a comma list
      let s1 : Node × List Node :=
        if isCommaExpression parent then (parent, rest)
        else (Node.call po en e args, parent :: rest)
      -- Be resilient to the value being inside parentheses
      match s1.2 with
      | [] => false
      | q :: rest2 =>
        let s2 : Node × List Node :=
          match q with
          | .paren _ _ _ => (q, rest2)
          | _ => (s1.1, q :: rest2)
        match s2.2 with
        | [] => false
        | r :: _ =>
          match r with
          | .conditional _ _ _ _ whenFalse => decide (whenFalse = s2.1)
          | _ => false
  | _ => false

/-- Which side of its anchor a pending text-surgery insertion binds to. -/
inductive EditSide where
  | left
  | right
deriving DecidableEq, Repr

/-- One pending insertion of the text-surgery buffer. -/
structure Edit where
  pos : Nat
  side : EditSide
  text : String
deriving DecidableEq, Repr

/-- The `MagicString` text-surgery buffer: the original text plus the ordered
list of pending insertions. -/
structure MagicStr where
  original : String
  edits : List Edit
deriving DecidableEq, Repr

/-- `appendLeft(index, content)`. -/
def MagicStr.appendLeft (ms : MagicStr) (pos : Nat) (text : String) : MagicStr :=
  ⟨ms.original, ms.edits ++ [⟨pos, EditSide.left, text⟩]⟩

/-- `appendRight(index, content)`. -/
def MagicStr.appendRight (ms : MagicStr) (pos : Nat) (text : String) : MagicStr :=
  ⟨ms.original, ms.edits ++ [⟨pos, EditSide.right, text⟩]⟩

/-- An `Import` record from the translator interface: the module specifier and
the local qualifier. -/
structure Import where
  specifier : String
  qualifier : String
deriving DecidableEq, Repr

/-- An `ExportInfo` record: exported identifier and the path it comes from. -/
structure ExportInfo where
  identifier : String
  «from» : String
deriving DecidableEq, Repr

/-- Result of `ImportManager.generateNamedImport`. -/
structure NamedImport where
  symbol : String
  moduleImport : Option String
deriving DecidableEq, Repr

/-- The external `ImportManager` collaborator, abstracted to its
`generateNamedImport(modulePath, identifier)` capability. -/
structure ImportManager where
  generateNamedImport : String → String → NamedImport

/-- The structure returned by the reflection host's `getUmdModule`: the UMD
wrapper function, its parent node (the wrapper call expression), and the
factory function. -/
structure UmdModule where
  wrapperFn : Node
  wrapperParent : Node
  factoryFn : Node

/-- If `pat` is a prefix of `cs`, return the remainder. -/
def dropPrefixList : List Char → List Char → Option (List Char)
  | [], cs => some cs
  | _ :: _, [] => none
  | p :: ps, c :: cs => if c = p then dropPrefixList ps cs else none

/-- Replace the leftmost occurrence of `pat` by `sub`. -/
def replaceFirstAux (pat sub : List Char) : List Char → List Char
  | [] => []
  | c :: cs =>
    match dropPrefixList pat (c :: cs) with
    | some rest => sub ++ rest
    | none => c :: replaceFirstAux pat sub cs

/-- Replace the first occurrence of `pat` (JS `String.replace` with a string
pattern replaces only the first occurrence). -/
def replaceFirst (s pat sub : String) : String :=
  String.mk (replaceFirstAux pat.data sub.data s.data)

/-- `getGlobalIdentifier`: rewrite a leading `@angular/` scope to `ng.` and
strip one leading slash. -/
def getGlobalIdentifier (i : Import) : String :=
  let s := replaceFirst i.specifier "@angular/" "ng."
  match s.data with
  | '/' :: rest => String.mk rest
  | _ => s

/-- The conditional unwrap of a parenthesized factory argument
(`isParenthesizedExpression(x) ? x.expression : x`). -/
def unParen (n : Node) : Node :=
  match n with
  | .paren _ _ e => e
  | _ => n

/-- `wrapperFunction.body.statements[0]`; `none` when the body is absent or
empty (where the JS code would fault calling the test on `undefined`). -/
def wrapperStmt0 (wrapperFunction : Node) : Option Node :=
  match wrapperFunction with
  | .functionExpr _ _ _ (.block _ _ sts) => sts.head?
  | _ => none

/-- The parent chain of `wrapperFunction.body.statements[0]` within the
wrapper function: the body block, then the wrapper function itself. -/
def wrapperAnc (wrapperFunction : Node) : List Node :=
  match wrapperFunction with
  | .functionExpr po en ps b => [b, .functionExpr po en ps b]
  | _ => []

/-- `renderCommonJsDependencies`: find the CommonJS conditional and append one
`require(...)` argument per import just before the factory call's closing
parenthesis.  `none` models a runtime fault (empty wrapper body). -/
def renderCommonJsDependencies (output : MagicStr) (wrapperFunction : Node)
    (imports : List Import) : Option MagicStr :=
  match wrapperStmt0 wrapperFunction with
  | none => none
  | some s0 =>
    match findNode isCommonJSConditional (wrapperAnc wrapperFunction) s0 with
    | none => some output
    | some (.conditional _ _ _ whenTrue _) =>
      -- Backup one char to account for the closing parenthesis on the call
      some (imports.foldl (fun o i =>
        o.appendLeft (whenTrue.getEnd - 1) (",require('" ++ i.specifier ++ "')"))
        output)
    | some _ => none

/-- `renderAmdDependencies`: find the AMD conditional, and if its `define`
call has an array-literal second argument, append one quoted specifier per
added dependency just before the closing bracket. -/
def renderAmdDependencies (output : MagicStr) (wrapperFunction : Node)
    (imports : List Import) : Option MagicStr :=
  match wrapperStmt0 wrapperFunction with
  | none => none
  | some s0 =>
    match findNode isAmdConditional (wrapperAnc wrapperFunction) s0 with
    | none => some output
    | some (.conditional _ _ _ whenTrue _) =>
      match whenTrue with
      | .call _ _ _ args =>
        match args.get? 1 with
        | some (.arrayLit _ aEnd _) =>
          -- Backup one char to account for the closing square bracket
          some (imports.foldl (fun o i =>
            o.appendLeft (aEnd - 1) (",'" ++ i.specifier ++ "'")) output)
        | some _ => some output
        | none => some output
      | _ => none
    | some _ => none

/-- `renderGlobalDependencies`: find the global factory call and append one
`global.<id>` argument per import just before the closing parenthesis. -/
def renderGlobalDependencies (output : MagicStr) (wrapperFunction : Node)
    (imports : List Import) : Option MagicStr :=
  match wrapperStmt0 wrapperFunction with
  | none => none
  | some s0 =>
    match findNode isGlobalFactoryCall (wrapperAnc wrapperFunction) s0 with
    | none => some output
    | some g =>
      -- Backup one char to account for the closing parenthesis
      some (imports.foldl (fun o i =>
        o.appendLeft (g.getEnd - 1) (",global." ++ getGlobalIdentifier i)) output)

/-- `renderFactoryParameters`: through the wrapper call (the wrapper
function's parent), reach the factory function given as second argument
(possibly parenthesized) and append one parameter per import after the last
existing parameter.  `parameters[parameters.length - 1]` has no emptiness
guard: `none` models the fault on an empty parameter list (and on a parent
that is not a call, where the unchecked cast would fault). -/
def renderFactoryParameters (output : MagicStr) (wrapperParent : Node)
    (imports : List Import) : Option MagicStr :=
  match wrapperParent with
  | .call _ _ _ args =>
    match args.get? 1 with
    | none => some output
    | some secondArgument =>
      match unParen secondArgument with
      | .functionExpr _ _ parameters _ =>
        match parameters.getLast? with
        | none => none
        | some lastParam =>
          some (imports.foldl (fun o i =>
            o.appendLeft lastParam.endPos ("," ++ i.qualifier)) output)
      | _ => some output
  | _ => none

/-- `UmdRenderingFormatter.addImports`: the result of `getUmdModule(file)` is
taken as argument (the reflection host is an external collaborator); absent a
UMD module the method returns without touching the buffer, otherwise the four
per-branch renderers run in order. -/
def UmdRenderingFormatter.addImports (output : MagicStr) (imports : List Import)
    (umdModule : Option UmdModule) : Option MagicStr :=
  match umdModule with
  | none => some output
  | some umd =>
    (renderCommonJsDependencies output umd.wrapperFn imports).bind fun o1 =>
    (renderAmdDependencies o1 umd.wrapperFn imports).bind fun o2 =>
    (renderGlobalDependencies o2 umd.wrapperFn imports).bind fun o3 =>
    renderFactoryParameters o3 umd.wrapperParent imports

/-- Model of the external `canonical-path` `dirname`. -/
def dirname (path : String) : String :=
  match (path.splitOn "/").dropLast with
  | [] => "."
  | parts => String.intercalate "/" parts

/-- Strip the common leading segments of two split paths. -/
def stripCommon : List String → List String → List String × List String
  | a :: as, b :: bs => if a = b then stripCommon as bs else (a :: as, b :: bs)
  | as, bs => (as, bs)

/-- Model of the external `canonical-path` `relative`. -/
def relativePath (fromDir toPath : String) : String :=
  let s := stripCommon (fromDir.splitOn "/") (toPath.splitOn "/")
  String.intercalate "/" (s.1.map (fun _ => "..") ++ s.2)

/-- Model of the rendering `utils` helper `stripExtension` (its file is not in
the excerpt): remove a trailing `.d.ts` or `.js` extension. -/
def stripExtension (path : String) : String :=
  if path.endsWith ".d.ts" then (path.dropRight 5)
  else if path.endsWith ".js" then (path.dropRight 3)
  else path

/-- `UmdRenderingFormatter.addExports`: append one `exports.<id> = ...;`
statement per export after the factory function's last statement (or just
before the body's closing brace when the body is empty). -/
def UmdRenderingFormatter.addExports (output : MagicStr)
    (entryPointBasePath : String) (exports : List ExportInfo)
    (importManager : ImportManager) (umdModule : Option UmdModule) :
    Option MagicStr :=
  match umdModule with
  | none => some output
  | some umd =>
    match umd.factoryFn with
    | .functionExpr _ _ _ (.block _ bend sts) =>
      let insertionPoint := match sts.getLast? with
        | some lastStatement => lastStatement.getEnd
        | none => bend - 1
      some (exports.foldl (fun o e =>
        let basePath := stripExtension e.«from»
        let relPath := "./" ++ relativePath (dirname entryPointBasePath) basePath
        let namedImport :=
          if entryPointBasePath ≠ basePath
          then importManager.generateNamedImport relPath e.identifier
          else ⟨e.identifier, none⟩
        let importNamespace := match namedImport.moduleImport with
          | some m => m ++ "."
          | none => ""
        o.appendRight insertionPoint
          ("\nexports." ++ e.identifier ++ " = " ++ importNamespace ++
            namedImport.symbol ++ ";")) output)
    | _ => none

/-- `UmdRenderingFormatter.addConstants`: insert the constants before the
factory function's first statement (or just after the body's opening brace
when the body is empty). -/
def UmdRenderingFormatter.addConstants (output : MagicStr) (constants : String)
    (umdModule : Option UmdModule) : Option MagicStr :=
  if constants = "" then some output
  else
    match umdModule with
    | none => some output
    | some umd =>
      match umd.factoryFn with
      | .functionExpr _ _ _ (.block bpos _ sts) =>
        let insertionPoint := match sts.head? with
          | some firstStatement => firstStatement.getStart
          | none => bpos + 1
        some (output.appendLeft insertionPoint ("\n" ++ constants ++ "\n"))
      | _ => none

/-- The per-import CommonJS edits described by the claim, as a function of the
found conditional. -/
def requireCallEdits (found : Option Node) (imports : List Import) : List Edit :=
  match found with
  | some (.conditional _ _ _ whenTrue _) => imports.map (fun i =>
      ⟨whenTrue.getEnd - 1, EditSide.left, ",require('" ++ i.specifier ++ "')"⟩)
  | _ => []

/-- The per-import AMD definition-array edits described by the claim. -/
def amdDefineEdits (found : Option Node) (imports : List Import) : List Edit :=
  match found with
  | some (.conditional _ _ _ (.call _ _ _ args) _) =>
    match args.get? 1 with
    | some (.arrayLit _ aEnd _) => imports.map (fun i => ⟨aEnd - 1, EditSide.left, ",'" ++ i.specifier ++ "'"⟩)
    | _ => []
  | _ => []

/-- The per-import global factory-call edits described by the claim. -/
def globalFactoryEdits (found : Option Node) (imports : List Import) : List Edit :=
  match found with
  | some g => imports.map (fun i =>
      ⟨g.getEnd - 1, EditSide.left, ",global." ++ getGlobalIdentifier i⟩)
  | none => []

/-- The per-import trailing factory-parameter edits described by the claim. -/
def factoryParamEdits (lastParam : Param) (imports : List Import) : List Edit := imports.map (fun i => ⟨lastParam.endPos, EditSide.left, "," ++ i.qualifier⟩)

/-! A concrete universal-wrapper syntax tree, used to exercise the theorems:
`typeof exports`/`typeof module` conditional calling `factory`, a `define`
conditional with a dependency array, a comma-and-parenthesis global factory
call as the false branch, and a two-parameter factory function as second
argument of the wrapper call. -/

/-- Condition of the CommonJS branch. -/
def exCond1 : Node :=
  Node.binary 20 80
    (Node.binary 20 45 (Node.typeofExpr 20 34 (Node.identifier 27 34 "exports"))
      OpKind.otherOp (Node.stringLit 39 47 "object"))
    OpKind.ampAmp
    (Node.binary 50 80 (Node.typeofExpr 50 63 (Node.identifier 57 63 "module"))
      OpKind.otherOp (Node.stringLit 70 80 "undefined"))

/-- CommonJS factory call. -/
def exWhenTrue1 : Node :=
  Node.call 83 120 (Node.identifier 83 90 "factory")
    (NodeList.cons (Node.identifier 91 98 "exports")
      (NodeList.cons
        (Node.call 100 118 (Node.identifier 100 107 "require")
          (NodeList.cons (Node.stringLit 108 117 "tslib") NodeList.nil))
        NodeList.nil))

/-- Condition of the AMD branch. -/
def exCond2 : Node :=
  Node.binary 125 165
    (Node.binary 125 148 (Node.typeofExpr 125 138 (Node.identifier 132 138 "define"))
      OpKind.otherOp (Node.stringLit 143 153 "function"))
    OpKind.ampAmp
    (Node.otherNode 150 165 NodeList.nil)

/-- AMD `define` call with its dependency array. -/
def exWhenTrue2 : Node :=
  Node.call 170 210 (Node.identifier 170 176 "define")
    (NodeList.cons (Node.stringLit 177 182 "mod")
      (NodeList.cons
        (Node.arrayLit 184 204
          (NodeList.cons (Node.stringLit 185 194 "exports")
            (NodeList.cons (Node.stringLit 195 203 "tslib") NodeList.nil)))
        (NodeList.cons (Node.identifier 206 213 "factory") NodeList.nil)))

/-- Global branch: a parenthesized comma list ending in the factory call. -/
def exWhenFalse2 : Node :=
  Node.paren 220 280
    (Node.binary 221 279 (Node.otherNode 221 244 NodeList.nil) OpKind.commaTok
      (Node.call 246 278 (Node.identifier 246 253 "factory")
        (NodeList.cons (Node.otherNode 254 270 NodeList.nil)
          (NodeList.cons (Node.otherNode 271 277 NodeList.nil) NodeList.nil))))

/-- The single wrapper statement: the three-way conditional. -/
def exStmt0 : Node :=
  Node.exprStatement 18 282
    (Node.conditional 20 281 exCond1 exWhenTrue1
      (Node.conditional 125 280 exCond2 exWhenTrue2 exWhenFalse2))

/-- The UMD wrapper function. -/
def exWrapperFn : Node :=
  Node.functionExpr 1 285 [⟨"global", 11, 17⟩, ⟨"factory", 19, 26⟩]
    (Node.block 16 284 (NodeList.cons exStmt0 NodeList.nil))

/-- The factory function's parameters. -/
def exFactoryParams : List Param := [⟨"exports", 305, 312⟩, ⟨"tslib", 314, 319⟩]

/-- The factory function's body. -/
def exFactoryBody : Node :=
  Node.block 321 340 (NodeList.cons (Node.otherNode 323 334 NodeList.nil)
    NodeList.nil)

/-- The factory function. -/
def exFactoryFn : Node := Node.functionExpr 295 340 exFactoryParams exFactoryBody

/-- Arguments of the wrapper call: `this` and the factory function. -/
def exWrapperArgs : NodeList :=
  NodeList.cons (Node.identifier 290 294 "this")
    (NodeList.cons exFactoryFn NodeList.nil)

/-- The wrapper call (parent of the wrapper function). -/
def exWrapperCall : Node := Node.call 0 345 exWrapperFn exWrapperArgs

/-- The detected UMD module of the concrete file. -/
def exUmdModule : UmdModule := ⟨exWrapperFn, exWrapperCall, exFactoryFn⟩

/-- Two imports to splice in. -/
def exImports : List Import := [⟨"@angular/core", "core"⟩, ⟨"tslib", "tslib_1"⟩]

end UmdEmbeddingTwo

section EsmEmbedding

/-!
The implementation file of `EsmDependencyHost` is not part of the excerpt
(only its tests are), so this component is modelled from the specification:
`findDependencies` keeps a visited-set cycle guard, applies the cheap
string-search pre-filter before building any syntax tree, and classifies each
resolved import target as external dependency, deep import, missing, or an
internal file to recurse into.  The resolver and parser are abstracted into
per-file resolved import targets; `treesBuilt` counts syntax-tree
constructions so that "no tree is built" is observable.
-/

/-- Whitespace characters recognized by the pre-filter. -/
def isWsChar (c : Char) : Bool :=
  c = ' ' || c = '\t' || c = '\n' || c = '\r'

/-- Does `from` occur as a substring? -/
def hasFromSub : List Char → Bool
  | 'f' :: 'r' :: 'o' :: 'm' :: _ => true
  | _ :: cs => hasFromSub cs
  | [] => false

/-- Rest after an `import` or `export` keyword at the head, if present. -/
def keywordAt (cs : List Char) : Option (List Char) :=
  match dropPrefixList ['i', 'm', 'p', 'o', 'r', 't'] cs with
  | some rest => some rest
  | none => dropPrefixList ['e', 'x', 'p', 'o', 'r', 't'] cs

/-- An import-or-re-export-shaped statement starting here: keyword, a
whitespace character, then a later `from`. -/
def importShapedAt (cs : List Char) : Bool :=
  match keywordAt cs with
  | some (c :: rest) => isWsChar c && hasFromSub rest
  | _ => false

/-- Scan every position of the text. -/
def hasImportOrReexportStatementsAux : List Char → Bool
  | [] => false
  | c :: cs => importShapedAt (c :: cs) || hasImportOrReexportStatementsAux cs

/-- Modelled from the spec: `hasImportOrReexportStatements`, the cheap string
search that decides whether the raw text contains any statement shaped like an import or re-export (an `import`/`export` keyword followed by whitespace with
a later `from`) — in particular false for text that merely contains the word
`import`. -/
def hasImportOrReexportStatements (source : String) : Bool :=
  hasImportOrReexportStatementsAux source.data

/-- Modelled from the spec: one resolved top-level import of a file.
`internal` targets stay inside the package and are recursed into; `external`
targets resolved at an external package's entry point become dependencies;
`deepImport` targets resolve inside an external package away from its entry
point; `missingImp` records specifiers that failed to resolve. -/
inductive ImportTarget where
  | internal (path : String)
  | external (path : String)
  | deepImport (path : String)
  | missingImp (specifier : String)
deriving DecidableEq, Repr

/-- Modelled from the spec: a file of the package under analysis — its path,
its raw text (consulted only through the pre-filter) and the resolved targets
of its top-level import/re-export statements. -/
structure EsmFile where
  path : String
  (contents : String) (imports : List ImportTarget)
deriving DecidableEq, Repr

/-- The package under analysis. -/
structure EsmPackage where
  files : List EsmFile
deriving DecidableEq, Repr

/-- Look a file up by path. -/
def findFile (pkg : EsmPackage) (path : String) : Option EsmFile :=
  pkg.files.find? (fun f => decide (f.path = path))

/-- Insertion-ordered set add. -/
def addToSet {α : Type} [DecidableEq α] (s : List α) (x : α) : List α :=
  if x ∈ s then s else s ++ [x]

/-- The traversal state of one `findDependencies` call: the visited-set cycle
guard, the three result partitions, and the count of syntax trees built. -/
structure DepState where
  visited : List String
  dependencies : List String
  missing : List String
  deepImports : List String
  treesBuilt : Nat
deriving DecidableEq, Repr

/-- The initial state. -/
def DepState.init : DepState := ⟨[], [], [], [], 0⟩

mutual
/-- Modelled from the spec: process one file.  Skip files already scanned in
this call; mark the file visited; if its raw text fails the pre-filter return
immediately without building a tree; otherwise build the tree (counted) and
process the file's resolved targets.  Fuel bounds the recursion; `none` means
fuel ran out (`findDependencies` supplies enough, see the termination
theorem). -/
def goFile (pkg : EsmPackage) (fuel : Nat) (path : String) (st : DepState) :
    Option DepState :=
  match fuel with
  | 0 => none
  | f + 1 =>
    if path ∈ st.visited then some st
    else
      let st1 : DepState := {st with visited := addToSet st.visited path}
      match findFile pkg path with
      | none => some st1
      | some file =>
        if hasImportOrReexportStatements file.contents then
          goTargets pkg f file.imports {st1 with treesBuilt := st1.treesBuilt + 1}
        else
          some st1
termination_by (fuel, 0, 0)

/-- Process a file's resolved targets in order: externals, deep imports and
missing specifiers are added (deduplicated) to their partitions; internal
targets are recursed into. -/
def goTargets (pkg : EsmPackage) (fuel : Nat) :
    List ImportTarget → DepState → Option DepState
  | [], st => some st
  | t :: ts, st =>
    match t with
    | .external p =>
      goTargets pkg fuel ts {st with dependencies := addToSet st.dependencies p}
    | .deepImport p =>
      goTargets pkg fuel ts {st with deepImports := addToSet st.deepImports p}
    | .missingImp s =>
      goTargets pkg fuel ts {st with missing := addToSet st.missing s}
    | .internal p =>
      match goFile pkg fuel p st with
      | none => none
      | some st' => goTargets pkg fuel ts st'
termination_by l _ => (fuel, 1, l.length)
end

/-- Modelled from the spec: `findDependencies(entryFile)`, with fuel one more
than the number of package files (shown sufficient by the termination
theorem). -/
def findDependencies (pkg : EsmPackage) (entryPath : String) : Option DepState :=
  goFile pkg (pkg.files.length + 1) entryPath DepState.init

/-- Files of this package still to visit (the termination measure). -/
def unvisitedCount (pkg : EsmPackage) (st : DepState) : Nat :=
  ((pkg.files.map (fun f => f.path)).filter
    (fun p => decide (p ∉ st.visited))).length

/-- Internal-edge reachability from the entry file, through files that pass
the pre-filter. -/
inductive ReachableFile (pkg : EsmPackage) (entry : String) : String → Prop where
  | base : ReachableFile pkg entry entry
  | step {p q : String} {f : EsmFile} : ReachableFile pkg entry p →
      findFile pkg p = some f →
      hasImportOrReexportStatements f.contents = true →
      ImportTarget.internal q ∈ f.imports → ReachableFile pkg entry q

/-- An external dependency reachable from the entry file. -/
def ExternalReachable (pkg : EsmPackage) (entry d : String) : Prop :=
  ∃ p f, ReachableFile pkg entry p ∧ findFile pkg p = some f ∧
    hasImportOrReexportStatements f.contents = true ∧
    ImportTarget.external d ∈ f.imports

/-- A target's obligation is met by a state. -/
def discharged (t : ImportTarget) (st : DepState) : Prop :=
  match t with
  | .internal q => q ∈ st.visited
  | .external d => d ∈ st.dependencies
  | .deepImport d => d ∈ st.deepImports
  | .missingImp s => s ∈ st.missing

/-- Every visited file's obligations are met, except those still pending in
the per-file debt lists. -/
def ClosedD (pkg : EsmPackage) (st : DepState)
    (debts : String → List ImportTarget) : Prop :=
  ∀ p f, p ∈ st.visited → findFile pkg p = some f →
    hasImportOrReexportStatements f.contents = true →
    ∀ t ∈ f.imports, t ∈ debts p ∨ discharged t st

/-- Monotonicity of the traversal state. -/
def DepMono (st st' : DepState) : Prop :=
  st.visited ⊆ st'.visited ∧ st.dependencies ⊆ st'.dependencies ∧
  st.missing ⊆ st'.missing ∧ st.deepImports ⊆ st'.deepImports

/-- Some package file imports `d` externally. -/
def ExternalTarget (pkg : EsmPackage) (d : String) : Prop :=
  ∃ f, f ∈ pkg.files ∧ ImportTarget.external d ∈ f.imports

/-- Behavioural invariants of `goFile` at a given fuel. -/
def GoFileSpec (pkg : EsmPackage) (fuel : Nat) : Prop :=
  ∀ path st st', goFile pkg fuel path st = some st' →
    DepMono st st' ∧ path ∈ st'.visited ∧
    (st.dependencies.Nodup → st'.dependencies.Nodup) ∧
    (∀ d ∈ st'.dependencies, d ∈ st.dependencies ∨ ExternalTarget pkg d) ∧
    (∀ D, ClosedD pkg st D → ClosedD pkg st' D)

/-- A concrete package with an internal cycle, mirroring the repository's
circular-dependency test: each of the two files imports the other twice and
one external entry point. -/
def circA : EsmFile :=
  ⟨"/internal/circular-a/index.js",
    "import * as B from \"../circular-b\"; export * from \"lib-1/sub-1\";",
    [ImportTarget.internal "/internal/circular-b/index.js",
     ImportTarget.internal "/internal/circular-b/index.js",
     ImportTarget.external "/node_modules/lib-1/sub-1"]⟩

/-- The second file of the cycle. -/
def circB : EsmFile :=
  ⟨"/internal/circular-b/index.js",
    "import * as A from \"../circular-a\"; export * from \"lib-1\";",
    [ImportTarget.internal "/internal/circular-a/index.js",
     ImportTarget.internal "/internal/circular-a/index.js",
     ImportTarget.external "/node_modules/lib-1"]⟩

/-- The cyclic package. -/
def circPkg : EsmPackage := ⟨[circA, circB]⟩

/-- A file whose text merely mentions the word `import`, with a nonempty
resolved-targets list to show the pre-filter short-circuits before them. -/
def noImportsFile : EsmFile :=
  ⟨"/no/imports/index.js",
    "Some text that happens to include the word import",
    [ImportTarget.external "/node_modules/lib-1"]⟩

/-- The package holding it. -/
def noImportsPkg : EsmPackage := ⟨[noImportsFile]⟩

/-- Behavioural invariants of `goTargets` at a given fuel, for target lists
whose external entries come from package files. -/
def GoTargetsSpec (pkg : EsmPackage) (fuel : Nat) : Prop :=
  ∀ l st st', (∀ d, ImportTarget.external d ∈ l → ExternalTarget pkg d) →
    goTargets pkg fuel l st = some st' →
    DepMono st st' ∧ (∀ t ∈ l, discharged t st') ∧
    (st.dependencies.Nodup → st'.dependencies.Nodup) ∧
    (∀ d ∈ st'.dependencies, d ∈ st.dependencies ∨ ExternalTarget pkg d) ∧
    (∀ D, ClosedD pkg st D →
      ClosedD pkg st' (fun p => (D p).filter (fun t => decide (t ∉ l))))

end EsmEmbedding

section EsmLemmas

theorem mem_addToSet {α : Type} [DecidableEq α] {s : List α} {x y : α} :
    x ∈ addToSet s y ↔ x ∈ s ∨ x = y := by
  unfold addToSet
  by_cases h : y ∈ s
  · rw [if_pos h]
    constructor
    · exact fun hx => Or.inl hx
    · rintro (hx | rfl)
      · exact hx
      · exact h
  · rw [if_neg h]
    simp

theorem subset_addToSet {α : Type} [DecidableEq α] (s : List α) (y : α) :
    s ⊆ addToSet s y :=
  fun _ hx => mem_addToSet.mpr (Or.inl hx)

theorem mem_addToSet_self {α : Type} [DecidableEq α] (s : List α) (y : α) :
    y ∈ addToSet s y :=
  mem_addToSet.mpr (Or.inr rfl)

theorem addToSet_nodup {α : Type} [DecidableEq α] {s : List α} (y : α)
    (h : s.Nodup) : (addToSet s y).Nodup := by
  unfold addToSet
  by_cases hy : y ∈ s
  · rwa [if_pos hy]
  · rw [if_neg hy]
    simp [List.nodup_append, h, hy]

theorem depMono_refl (st : DepState) : DepMono st st :=
  ⟨fun _ h => h, fun _ h => h, fun _ h => h, fun _ h => h⟩

theorem depMono_trans {a b c : DepState} (h1 : DepMono a b) (h2 : DepMono b c) :
    DepMono a c :=
  ⟨fun _ h => h2.1 (h1.1 h), fun _ h => h2.2.1 (h1.2.1 h),
    fun _ h => h2.2.2.1 (h1.2.2.1 h), fun _ h => h2.2.2.2 (h1.2.2.2 h)⟩

theorem discharged_mono {t : ImportTarget} {st st' : DepState}
    (hm : DepMono st st') (h : discharged t st) : discharged t st' := by
  cases t with
  | internal q => exact hm.1 h
  | external d => exact hm.2.1 h
  | deepImport d => exact hm.2.2.2 h
  | missingImp s => exact hm.2.2.1 h

theorem closedD_weaken {pkg : EsmPackage} {st : DepState}
    {D1 D2 : String → List ImportTarget}
    (h12 : ∀ p t, t ∈ D1 p → t ∈ D2 p)
    (h : ClosedD pkg st D1) : ClosedD pkg st D2 := by
  intro p f hp hf hpre t ht
  rcases h p f hp hf hpre t ht with hm | hd
  · exact Or.inl (h12 p t hm)
  · exact Or.inr hd

theorem closedD_filter_extend {pkg : EsmPackage} {st' : DepState}
    {D : String → List ImportTarget} {t : ImportTarget} {ts : List ImportTarget}
    (hdis : discharged t st')
    (h : ClosedD pkg st' (fun p => (D p).filter (fun x => decide (x ∉ ts)))) :
    ClosedD pkg st' (fun p => (D p).filter (fun x => decide (x ∉ t :: ts))) := by
  intro p f hp hf hpre t' ht'
  rcases h p f hp hf hpre t' ht' with hmem | hd
  · rw [List.mem_filter] at hmem
    by_cases he : t' = t
    · subst he
      exact Or.inr hdis
    · left
      rw [List.mem_filter]
      refine ⟨hmem.1, ?_⟩
      have hts : t' ∉ ts := by simpa using hmem.2
      simp [List.mem_cons, he, hts]
  · exact Or.inr hd

theorem goTargetsSpec_of (pkg : EsmPackage) (fuel : Nat)
    (hP : GoFileSpec pkg fuel) : GoTargetsSpec pkg fuel := by
  intro l
  induction l with
  | nil =>
    intro st st' _ h
    simp only [goTargets] at h
    cases h
    refine ⟨depMono_refl st, by simp, fun h => h, fun d hd => Or.inl hd, ?_⟩
    intro D hC
    refine closedD_weaken ?_ hC
    intro p t ht
    rw [List.mem_filter]
    exact ⟨ht, by simp⟩
  | cons t ts ih =>
    intro st st' hl h
    have hlr : ∀ d, ImportTarget.external d ∈ ts → ExternalTarget pkg d :=
      fun d hd => hl d (List.mem_cons_of_mem _ hd)
    cases t with
    | external p =>
      simp only [goTargets] at h
      obtain ⟨mono2, hdis2, hnodup2, horig2, hclosed2⟩ := ih _ _ hlr h
      have hmono1 : DepMono st {st with dependencies := addToSet st.dependencies p} :=
        ⟨fun _ hx => hx, subset_addToSet _ _, fun _ hx => hx, fun _ hx => hx⟩
      have hdisp : discharged (ImportTarget.external p) st' :=
        mono2.2.1 (mem_addToSet_self _ _)
      refine ⟨depMono_trans hmono1 mono2, ?_, ?_, ?_, ?_⟩
      · intro t' ht'
        rcases List.mem_cons.mp ht' with rfl | ht'
        · exact hdisp
        · exact hdis2 t' ht'
      · intro hnd
        exact hnodup2 (addToSet_nodup _ hnd)
      · intro d hd
        rcases horig2 d hd with hd' | he
        · rcases mem_addToSet.mp hd' with hd'' | rfl
          · exact Or.inl hd''
          · exact Or.inr (hl d (List.mem_cons_self _ _))
        · exact Or.inr he
      · intro D hC
        exact closedD_filter_extend hdisp
          (hclosed2 D (closedD_weaken (fun _ _ h => h)
            (by
              intro q f hq hf hpre t' ht'
              rcases hC q f hq hf hpre t' ht' with hm | hd
              · exact Or.inl hm
              · exact Or.inr (discharged_mono hmono1 hd))))
    | deepImport p =>
      simp only [goTargets] at h
      obtain ⟨mono2, hdis2, hnodup2, horig2, hclosed2⟩ := ih _ _ hlr h
      have hmono1 : DepMono st {st with deepImports := addToSet st.deepImports p} :=
        ⟨fun _ hx => hx, fun _ hx => hx, fun _ hx => hx, subset_addToSet _ _⟩
      have hdisp : discharged (ImportTarget.deepImport p) st' :=
        mono2.2.2.2 (mem_addToSet_self _ _)
      refine ⟨depMono_trans hmono1 mono2, ?_, hnodup2, horig2, ?_⟩
      · intro t' ht'
        rcases List.mem_cons.mp ht' with rfl | ht'
        · exact hdisp
        · exact hdis2 t' ht'
      · intro D hC
        exact closedD_filter_extend hdisp
          (hclosed2 D (by
            intro q f hq hf hpre t' ht'
            rcases hC q f hq hf hpre t' ht' with hm | hd
            · exact Or.inl hm
            · exact Or.inr (discharged_mono hmono1 hd)))
    | missingImp s =>
      simp only [goTargets] at h
      obtain ⟨mono2, hdis2, hnodup2, horig2, hclosed2⟩ := ih _ _ hlr h
      have hmono1 : DepMono st {st with missing := addToSet st.missing s} :=
        ⟨fun _ hx => hx, fun _ hx => hx, subset_addToSet _ _, fun _ hx => hx⟩
      have hdisp : discharged (ImportTarget.missingImp s) st' :=
        mono2.2.2.1 (mem_addToSet_self _ _)
      refine ⟨depMono_trans hmono1 mono2, ?_, hnodup2, horig2, ?_⟩
      · intro t' ht'
        rcases List.mem_cons.mp ht' with rfl | ht'
        · exact hdisp
        · exact hdis2 t' ht'
      · intro D hC
        exact closedD_filter_extend hdisp
          (hclosed2 D (by
            intro q f hq hf hpre t' ht'
            rcases hC q f hq hf hpre t' ht' with hm | hd
            · exact Or.inl hm
            · exact Or.inr (discharged_mono hmono1 hd)))
    | internal p =>
      simp only [goTargets] at h
      cases hgo : goFile pkg fuel p st with
      | none => rw [hgo] at h; simp at h
      | some st2 =>
        rw [hgo] at h
        simp only [] at h
        obtain ⟨mono1, hpvis, hnodup1, horig1, hclosed1⟩ := hP p st st2 hgo
        obtain ⟨mono2, hdis2, hnodup2, horig2, hclosed2⟩ := ih _ _ hlr h
        have hdisp : discharged (ImportTarget.internal p) st' := mono2.1 hpvis
        refine ⟨depMono_trans mono1 mono2, ?_, fun hnd => hnodup2 (hnodup1 hnd),
          ?_, ?_⟩
        · intro t' ht'
          rcases List.mem_cons.mp ht' with rfl | ht'
          · exact hdisp
          · exact hdis2 t' ht'
        · intro d hd
          rcases horig2 d hd with hd' | he
          · rcases horig1 d hd' with hd'' | he'
            · exact Or.inl hd''
            · exact Or.inr he'
          · exact Or.inr he
        · intro D hC
          exact closedD_filter_extend hdisp (hclosed2 D (hclosed1 D hC))

theorem goFileSpec_all (pkg : EsmPackage) : ∀ fuel, GoFileSpec pkg fuel := by
  intro fuel
  induction fuel with
  | zero =>
    intro path st st' h
    simp [goFile] at h
  | succ f ih =>
    have hQ := goTargetsSpec_of pkg f ih
    intro path st st' h
    simp only [goFile] at h
    by_cases hv : path ∈ st.visited
    · rw [if_pos hv] at h
      cases h
      exact ⟨depMono_refl st, hv, fun hnd => hnd, fun d hd => Or.inl hd,
        fun D hC => hC⟩
    · rw [if_neg hv] at h
      have hmono1 : DepMono st {st with visited := addToSet st.visited path} :=
        ⟨subset_addToSet _ _, fun _ hx => hx, fun _ hx => hx, fun _ hx => hx⟩
      cases hff : findFile pkg path with
      | none =>
        simp only [hff] at h
        cases h
        refine ⟨hmono1, mem_addToSet_self _ _, fun hnd => hnd,
          fun d hd => Or.inl hd, ?_⟩
        intro D hC
        intro p f' hp hf' hpre' t ht
        rcases mem_addToSet.mp hp with hpv | rfl
        · rcases hC p f' hpv hf' hpre' t ht with hm | hd
          · exact Or.inl hm
          · exact Or.inr (discharged_mono hmono1 hd)
        · rw [hff] at hf'
          exact absurd hf' (by simp)
      | some file =>
        simp only [hff] at h
        by_cases hpre : hasImportOrReexportStatements file.contents
        · rw [if_pos hpre] at h
          have hfmem : file ∈ pkg.files := List.mem_of_find?_eq_some hff
          have hl : ∀ d, ImportTarget.external d ∈ file.imports →
              ExternalTarget pkg d := fun d hd => ⟨file, hfmem, hd⟩
          obtain ⟨mono2, hdis2, hnodup2, horig2, hclosed2⟩ :=
            hQ file.imports _ st' hl h
          have hmono1t : DepMono st
              {st with visited := addToSet st.visited path, treesBuilt := st.treesBuilt + 1} :=
            ⟨subset_addToSet _ _, fun _ hx => hx, fun _ hx => hx, fun _ hx => hx⟩
          refine ⟨depMono_trans hmono1t mono2, mono2.1 (mem_addToSet_self _ _),
            hnodup2, horig2, ?_⟩
          intro D hC
          have hCE : ClosedD pkg
              {st with visited := addToSet st.visited path, treesBuilt := st.treesBuilt + 1}
              (fun p => if p = path then file.imports else D p) := by
            intro p f' hp hf' hpre' t ht
            rcases mem_addToSet.mp hp with hpv | rfl
            · have hne : p ≠ path := fun he => hv (he ▸ hpv)
              rcases hC p f' hpv hf' hpre' t ht with hm | hd
              · left
                simp only [if_neg hne]
                exact hm
              · exact Or.inr (discharged_mono hmono1t hd)
            · have hfe : f' = file := by
                rw [hff] at hf'
                exact (Option.some_inj.mp hf').symm
              subst hfe
              left
              simp only [if_pos rfl]
              exact ht
          refine closedD_weaken ?_ (hclosed2 _ hCE)
          intro p t ht
          rw [List.mem_filter] at ht
          by_cases hp : p = path
          · subst hp
            rw [if_pos rfl] at ht
            exact absurd ht.1 (by simpa using ht.2)
          · rw [if_neg hp] at ht
            exact ht.1
        · rw [if_neg hpre] at h
          cases h
          refine ⟨hmono1, mem_addToSet_self _ _, fun hnd => hnd,
            fun d hd => Or.inl hd, ?_⟩
          intro D hC
          intro p f' hp hf' hpre' t ht
          rcases mem_addToSet.mp hp with hpv | rfl
          · rcases hC p f' hpv hf' hpre' t ht with hm | hd
            · exact Or.inl hm
            · exact Or.inr (discharged_mono hmono1 hd)
          · have hfe : f' = file := by
              rw [hff] at hf'
              exact (Option.some_inj.mp hf').symm
            subst hfe
            exact absurd hpre' (by simpa using hpre)

theorem length_filter_le_of_imp {α : Type} (l : List α) (q r : α → Bool)
    (h : ∀ a, q a = true → r a = true) :
    (l.filter q).length ≤ (l.filter r).length := by
  induction l with
  | nil => simp
  | cons e es ih =>
    cases hq : q e with
    | true =>
      rw [List.filter_cons, if_pos hq, List.filter_cons, if_pos (h e hq)]
      exact Nat.succ_le_succ ih
    | false =>
      rw [List.filter_cons, if_neg (by simp [hq])]
      cases hr : r e with
      | true =>
        rw [List.filter_cons, if_pos hr]
        exact Nat.le_succ_of_le ih
      | false =>
        rw [List.filter_cons, if_neg (by simp [hr])]
        exact ih

theorem filter_unvisited_lt (paths visited : List String) (path : String)
    (hmem : path ∈ paths) (hnv : path ∉ visited) :
    (paths.filter (fun p => decide (p ∉ addToSet visited path))).length <
      (paths.filter (fun p => decide (p ∉ visited))).length := by
  induction paths with
  | nil => simp at hmem
  | cons e es ih =>
    by_cases he : e = path
    · subst he
      rw [List.filter_cons, if_neg (by simp [mem_addToSet_self]),
        List.filter_cons, if_pos (by simpa using hnv)]
      refine Nat.lt_succ_of_le ?_
      refine length_filter_le_of_imp es _ _ ?_
      intro a ha
      have hna : a ∉ addToSet visited e := of_decide_eq_true ha
      exact decide_eq_true (fun hav => hna (subset_addToSet _ _ hav))
    · have hmem' : path ∈ es := by
        rcases List.mem_cons.mp hmem with h' | h'
        · exact absurd h'.symm he
        · exact h'
      by_cases hev : e ∈ visited
      · rw [List.filter_cons, if_neg (by simp [mem_addToSet.mpr (Or.inl hev)]),
          List.filter_cons, if_neg (by simp [hev])]
        exact ih hmem'
      · rw [List.filter_cons, if_pos (by simp [mem_addToSet, hev, he]),
          List.filter_cons, if_pos (by simpa using hev)]
        exact Nat.succ_lt_succ (ih hmem')

theorem unvisited_mono (pkg : EsmPackage) {st st2 : DepState}
    (hsub : st.visited ⊆ st2.visited) :
    unvisitedCount pkg st2 ≤ unvisitedCount pkg st := by
  unfold unvisitedCount
  refine length_filter_le_of_imp _ _ _ ?_
  intro a ha
  exact decide_eq_true (fun hmem => (of_decide_eq_true ha) (hsub hmem))

theorem goTargetsTotal (pkg : EsmPackage) (f : Nat)
    (hT : ∀ path st, unvisitedCount pkg st < f →
      ∃ st', goFile pkg f path st = some st')
    (hS : GoFileSpec pkg f) :
    ∀ l st, unvisitedCount pkg st < f →
      ∃ st', goTargets pkg f l st = some st' := by
  intro l
  induction l with
  | nil => intro st _; exact ⟨st, by simp [goTargets]⟩
  | cons t ts ih =>
    intro st hlt
    cases t with
    | external p =>
      obtain ⟨st', h⟩ := ih {st with dependencies := addToSet st.dependencies p}
        (by exact hlt)
      exact ⟨st', by simp only [goTargets]; exact h⟩
    | deepImport p =>
      obtain ⟨st', h⟩ := ih {st with deepImports := addToSet st.deepImports p}
        (by exact hlt)
      exact ⟨st', by simp only [goTargets]; exact h⟩
    | missingImp s =>
      obtain ⟨st', h⟩ := ih {st with missing := addToSet st.missing s}
        (by exact hlt)
      exact ⟨st', by simp only [goTargets]; exact h⟩
    | internal p =>
      obtain ⟨st2, h2⟩ := hT p st hlt
      have hmono := (hS p st st2 h2).1
      obtain ⟨st', h3⟩ := ih st2 (lt_of_le_of_lt (unvisited_mono pkg hmono.1) hlt)
      exact ⟨st', by simp only [goTargets, h2]; exact h3⟩

theorem goFileTotal (pkg : EsmPackage) :
    ∀ fuel path st, unvisitedCount pkg st < fuel →
      ∃ st', goFile pkg fuel path st = some st' := by
  intro fuel
  induction fuel with
  | zero => intro path st h; omega
  | succ f ih =>
    intro path st hlt
    by_cases hv : path ∈ st.visited
    · exact ⟨st, by simp [goFile, hv]⟩
    · cases hff : findFile pkg path with
      | none =>
        exact ⟨{st with visited := addToSet st.visited path},
          by simp [goFile, hv, hff]⟩
      | some file =>
        have hff2 : pkg.files.find? (fun f => decide (f.path = path)) = some file := hff
        by_cases hpre : hasImportOrReexportStatements file.contents
        · have hfmem : file ∈ pkg.files := List.mem_of_find?_eq_some hff2
          have hfp : file.path = path := by
            have hx := List.find?_some hff2
            simpa using hx
          have hpath : path ∈ pkg.files.map (fun f => f.path) :=
            hfp ▸ List.mem_map_of_mem _ hfmem
          have hdec := filter_unvisited_lt (pkg.files.map (fun f => f.path))
            st.visited path hpath hv
          have hlt2 : unvisitedCount pkg
              {st with visited := addToSet st.visited path, treesBuilt := st.treesBuilt + 1} < f := by
            unfold unvisitedCount at hlt ⊢
            dsimp only at hlt ⊢
            omega
          obtain ⟨st2', hst2⟩ := goTargetsTotal pkg f ih (goFileSpec_all pkg f)
            file.imports _ hlt2
          exact ⟨st2', by simp only [goFile, if_neg hv, hff, if_pos hpre]; exact hst2⟩
        · exact ⟨{st with visited := addToSet st.visited path},
            by simp [goFile, hv, hff, hpre]⟩

theorem reachable_visited (pkg : EsmPackage) (entry : String) (stF : DepState)
    (hC : ClosedD pkg stF (fun _ => [])) (hent : entry ∈ stF.visited) :
    ∀ p, ReachableFile pkg entry p → p ∈ stF.visited := by
  intro p hr
  induction hr with
  | base => exact hent
  | step h1 hff hpre hin ih =>
    rcases hC _ _ ih hff hpre _ hin with hm | hd
    · simp at hm
    · exact hd

end EsmLemmas

section ClaimsEsm

/-- C7: for every package import graph, cycles among internal files included,
`findDependencies` terminates (the fuel `|files| + 1` always suffices), the
returned dependencies contain every external dependency reachable from the
entry file exactly once (deduplicated by resolved path), and — provided no
external target path coincides with an internal file path, which is what
external means — internal files never appear among the dependencies. -/
theorem C7_findDependencies_terminates_dedup (pkg : EsmPackage) (entry : String)
    (hWF : ∀ f ∈ pkg.files, ∀ g ∈ pkg.files, ∀ t ∈ f.imports,
      t ≠ ImportTarget.external g.path) :
    ∃ st, findDependencies pkg entry = some st ∧
      st.dependencies.Nodup ∧
      (∀ d, ExternalReachable pkg entry d → st.dependencies.count d = 1) ∧
      (∀ d ∈ st.dependencies, ∀ g ∈ pkg.files, g.path ≠ d) := by
  have hinit : unvisitedCount pkg DepState.init < pkg.files.length + 1 := by
    unfold unvisitedCount
    have hle := List.length_filter_le
      (fun p => decide (p ∉ DepState.init.visited))
      (pkg.files.map (fun f => f.path))
    rw [List.length_map] at hle
    omega
  obtain ⟨st, hst⟩ := goFileTotal pkg (pkg.files.length + 1) entry
    DepState.init hinit
  obtain ⟨hmono, hent, hnodup, horig, hclosed⟩ :=
    goFileSpec_all pkg _ entry _ _ hst
  have hN : st.dependencies.Nodup := hnodup (by simp [DepState.init])
  have hCl : ClosedD pkg st (fun _ => []) := by
    refine hclosed _ ?_
    intro p f hp
    simp [DepState.init] at hp
  refine ⟨st, hst, hN, ?_, ?_⟩
  · intro d hdr
    rcases hdr with ⟨p, f, hrp, hff, hpre, hext⟩
    have hpv : p ∈ st.visited := reachable_visited pkg entry st hCl hent p hrp
    have hdis : d ∈ st.dependencies := by
      rcases hCl p f hpv hff hpre _ hext with hm | hd
      · simp at hm
      · exact hd
    exact List.count_eq_one_of_mem hN hdis
  · intro d hd g hg
    rcases horig d hd with hd0 | ⟨f, hf, hfe⟩
    · simp [DepState.init] at hd0
    · intro heq
      exact hWF f hf g hg _ hfe (by rw [heq])

/-- C8: for every file whose raw text fails the cheap pre-filter,
`findDependencies` returns empty `dependencies`, `missing` and `deepImports`,
and constructs no syntax tree. -/
theorem C8_prefilter_no_tree (pkg : EsmPackage) (entry : String) (f : EsmFile)
    (hfind : findFile pkg entry = some f)
    (hpre : hasImportOrReexportStatements f.contents = false) :
    ∃ st, findDependencies pkg entry = some st ∧
      st.dependencies = [] ∧ st.missing = [] ∧ st.deepImports = [] ∧
      st.treesBuilt = 0 := by
  refine ⟨⟨[entry], [], [], [], 0⟩, ?_, rfl, rfl, rfl, rfl⟩
  unfold findDependencies
  simp [goFile, DepState.init, hfind, hpre, addToSet]

/-- C7 witness: the theorem applied to the concrete cyclic two-file package. -/
theorem C7_witness :
    ∃ st, findDependencies circPkg "/internal/circular-a/index.js" = some st ∧
      st.dependencies.Nodup ∧
      (∀ d, ExternalReachable circPkg "/internal/circular-a/index.js" d →
        st.dependencies.count d = 1) ∧
      (∀ d ∈ st.dependencies, ∀ g ∈ circPkg.files, g.path ≠ d) :=
  C7_findDependencies_terminates_dedup circPkg "/internal/circular-a/index.js"
    (by decide)

/-- C8 witness: the theorem applied to the file whose text merely contains the
word `import`. -/
theorem C8_witness :
    ∃ st, findDependencies noImportsPkg "/no/imports/index.js" = some st ∧
      st.dependencies = [] ∧ st.missing = [] ∧ st.deepImports = [] ∧
      st.treesBuilt = 0 :=
  C8_prefilter_no_tree noImportsPkg "/no/imports/index.js" noImportsFile
    (by decide) (by decide)

end ClaimsEsm

section UmdLemmas

theorem orO_eq_some {a b : Option Node} {m : Node} (h : orO a b = some m) :
    a = some m ∨ b = some m := by
  cases a with
  | none => exact Or.inr h
  | some v => exact Or.inl h

mutual
theorem findNode_some_sat (p : Node → List Node → Bool) (anc : List Node)
    (n m : Node) (h : findNode p anc n = some m) : ∃ a, p m a = true := by
  cases n with
  | identifier po en t =>
    simp only [findNode] at h
    split at h
    · next hc => cases h; exact ⟨anc, hc⟩
    · simp at h
  | stringLit po en t =>
    simp only [findNode] at h
    split at h
    · next hc => cases h; exact ⟨anc, hc⟩
    · simp at h
  | typeofExpr po en e =>
    simp only [findNode] at h
    split at h
    · next hc => cases h; exact ⟨anc, hc⟩
    · exact findNode_some_sat p _ _ m h
  | binary po en l op r =>
    simp only [findNode] at h
    split at h
    · next hc => cases h; exact ⟨anc, hc⟩
    · rcases orO_eq_some h with h' | h'
      · exact findNode_some_sat p _ _ m h'
      · exact findNode_some_sat p _ _ m h'
  | conditional po en c t f =>
    simp only [findNode] at h
    split at h
    · next hc => cases h; exact ⟨anc, hc⟩
    · rcases orO_eq_some h with h' | h'
      · exact findNode_some_sat p _ _ m h'
      · rcases orO_eq_some h' with h'' | h''
        · exact findNode_some_sat p _ _ m h''
        · exact findNode_some_sat p _ _ m h''
  | call po en e args =>
    simp only [findNode] at h
    split at h
    · next hc => cases h; exact ⟨anc, hc⟩
    · rcases orO_eq_some h with h' | h'
      · exact findNode_some_sat p _ _ m h'
      · exact findNodeList_some_sat p _ _ m h'
  | arrayLit po en els =>
    simp only [findNode] at h
    split at h
    · next hc => cases h; exact ⟨anc, hc⟩
    · exact findNodeList_some_sat p _ _ m h
  | paren po en e =>
    simp only [findNode] at h
    split at h
    · next hc => cases h; exact ⟨anc, hc⟩
    · exact findNode_some_sat p _ _ m h
  | functionExpr po en ps b =>
    simp only [findNode] at h
    split at h
    · next hc => cases h; exact ⟨anc, hc⟩
    · exact findNode_some_sat p _ _ m h
  | block po en sts =>
    simp only [findNode] at h
    split at h
    · next hc => cases h; exact ⟨anc, hc⟩
    · exact findNodeList_some_sat p _ _ m h
  | exprStatement po en e =>
    simp only [findNode] at h
    split at h
    · next hc => cases h; exact ⟨anc, hc⟩
    · exact findNode_some_sat p _ _ m h
  | otherNode po en cs =>
    simp only [findNode] at h
    split at h
    · next hc => cases h; exact ⟨anc, hc⟩
    · exact findNodeList_some_sat p _ _ m h

theorem findNodeList_some_sat (p : Node → List Node → Bool) (anc : List Node)
    (l : NodeList) (m : Node) (h : findNodeList p anc l = some m) :
    ∃ a, p m a = true := by
  cases l with
  | nil => simp [findNodeList] at h
  | cons c cs =>
    simp only [findNodeList] at h
    rcases orO_eq_some h with h' | h'
    · exact findNode_some_sat p _ _ m h'
    · exact findNodeList_some_sat p _ _ m h'
end

theorem foldl_appendLeft_eq (l : List Import) (posf : Import → Nat)
    (txtf : Import → String) :
    ∀ ms : MagicStr,
      l.foldl (fun o i => o.appendLeft (posf i) (txtf i)) ms =
        ⟨ms.original, ms.edits ++
          l.map (fun i => ⟨posf i, EditSide.left, txtf i⟩)⟩ := by
  induction l with
  | nil => intro ms; simp
  | cons i rest ih =>
    intro ms
    rw [List.foldl_cons, ih]
    simp [MagicStr.appendLeft]

theorem renderCommonJs_char (output : MagicStr) (w : Node) (imports : List Import)
    (s0 : Node) (hs0 : wrapperStmt0 w = some s0) :
    renderCommonJsDependencies output w imports =
      some ⟨output.original, output.edits ++
        requireCallEdits (findNode isCommonJSConditional (wrapperAnc w) s0) imports⟩ := by
  unfold renderCommonJsDependencies
  simp only [hs0]
  cases hfind : findNode isCommonJSConditional (wrapperAnc w) s0 with
  | none => simp [hfind, requireCallEdits]
  | some m =>
    rcases findNode_some_sat _ _ _ _ hfind with ⟨a, ha⟩
    cases m with
    | conditional po en c t f =>
      simp only [hfind, requireCallEdits]
      rw [foldl_appendLeft_eq]
    | identifier po en tx => simp [isCommonJSConditional] at ha
    | stringLit po en tx => simp [isCommonJSConditional] at ha
    | typeofExpr po en e => simp [isCommonJSConditional] at ha
    | binary po en lf op rt => simp [isCommonJSConditional] at ha
    | call po en e args => simp [isCommonJSConditional] at ha
    | arrayLit po en els => simp [isCommonJSConditional] at ha
    | paren po en e => simp [isCommonJSConditional] at ha
    | functionExpr po en ps b => simp [isCommonJSConditional] at ha
    | block po en sts => simp [isCommonJSConditional] at ha
    | exprStatement po en e => simp [isCommonJSConditional] at ha
    | otherNode po en cs => simp [isCommonJSConditional] at ha

theorem renderAmd_char (output : MagicStr) (w : Node) (imports : List Import)
    (s0 : Node) (hs0 : wrapperStmt0 w = some s0) :
    renderAmdDependencies output w imports =
      some ⟨output.original, output.edits ++
        amdDefineEdits (findNode isAmdConditional (wrapperAnc w) s0) imports⟩ := by
  unfold renderAmdDependencies
  simp only [hs0]
  cases hfind : findNode isAmdConditional (wrapperAnc w) s0 with
  | none => simp [hfind, amdDefineEdits]
  | some m =>
    rcases findNode_some_sat _ _ _ _ hfind with ⟨a, ha⟩
    cases m with
    | conditional po en c t f =>
      cases t with
      | call cpo cen ce cargs =>
        cases hget : cargs.get? 1 with
        | none => simp [hfind, amdDefineEdits, hget]
        | some dep =>
          cases dep with
          | arrayLit apo aen aels =>
            simp only [hfind, hget, amdDefineEdits]
            rw [foldl_appendLeft_eq]
          | identifier a1 a2 a3 => simp [hfind, amdDefineEdits, hget]
          | stringLit a1 a2 a3 => simp [hfind, amdDefineEdits, hget]
          | typeofExpr a1 a2 a3 => simp [hfind, amdDefineEdits, hget]
          | binary a1 a2 a3 a4 a5 => simp [hfind, amdDefineEdits, hget]
          | conditional a1 a2 a3 a4 a5 => simp [hfind, amdDefineEdits, hget]
          | call a1 a2 a3 a4 => simp [hfind, amdDefineEdits, hget]
          | paren a1 a2 a3 => simp [hfind, amdDefineEdits, hget]
          | functionExpr a1 a2 a3 a4 => simp [hfind, amdDefineEdits, hget]
          | block a1 a2 a3 => simp [hfind, amdDefineEdits, hget]
          | exprStatement a1 a2 a3 => simp [hfind, amdDefineEdits, hget]
          | otherNode a1 a2 a3 => simp [hfind, amdDefineEdits, hget]
      | identifier a1 a2 a3 => simp [isAmdConditional] at ha
      | stringLit a1 a2 a3 => simp [isAmdConditional] at ha
      | typeofExpr a1 a2 a3 => simp [isAmdConditional] at ha
      | binary a1 a2 a3 a4 a5 => simp [isAmdConditional] at ha
      | conditional a1 a2 a3 a4 a5 => simp [isAmdConditional] at ha
      | arrayLit a1 a2 a3 => simp [isAmdConditional] at ha
      | paren a1 a2 a3 => simp [isAmdConditional] at ha
      | functionExpr a1 a2 a3 a4 => simp [isAmdConditional] at ha
      | block a1 a2 a3 => simp [isAmdConditional] at ha
      | exprStatement a1 a2 a3 => simp [isAmdConditional] at ha
      | otherNode a1 a2 a3 => simp [isAmdConditional] at ha
    | identifier po en tx => simp [isAmdConditional] at ha
    | stringLit po en tx => simp [isAmdConditional] at ha
    | typeofExpr po en e => simp [isAmdConditional] at ha
    | binary po en lf op rt => simp [isAmdConditional] at ha
    | call po en e args => simp [isAmdConditional] at ha
    | arrayLit po en els => simp [isAmdConditional] at ha
    | paren po en e => simp [isAmdConditional] at ha
    | functionExpr po en ps b => simp [isAmdConditional] at ha
    | block po en sts => simp [isAmdConditional] at ha
    | exprStatement po en e => simp [isAmdConditional] at ha
    | otherNode po en cs => simp [isAmdConditional] at ha

theorem renderGlobal_char (output : MagicStr) (w : Node) (imports : List Import)
    (s0 : Node) (hs0 : wrapperStmt0 w = some s0) :
    renderGlobalDependencies output w imports =
      some ⟨output.original, output.edits ++
        globalFactoryEdits (findNode isGlobalFactoryCall (wrapperAnc w) s0) imports⟩ := by
  unfold renderGlobalDependencies
  simp only [hs0]
  cases hfind : findNode isGlobalFactoryCall (wrapperAnc w) s0 with
  | none => simp [hfind, globalFactoryEdits]
  | some g =>
    simp only [hfind, globalFactoryEdits]
    rw [foldl_appendLeft_eq]

theorem renderFactoryParams_char (output : MagicStr) (imports : List Import)
    (cp ce : Nat) (cf : Node) (cargs : NodeList) (secondArg : Node)
    (harg : cargs.get? 1 = some secondArg)
    (fp fe : Nat) (fparams : List Param) (fbody : Node)
    (hfn : unParen secondArg = Node.functionExpr fp fe fparams fbody)
    (lastParam : Param) (hlast : fparams.getLast? = some lastParam) :
    renderFactoryParameters output (Node.call cp ce cf cargs) imports =
      some ⟨output.original,
        output.edits ++ factoryParamEdits lastParam imports⟩ := by
  unfold renderFactoryParameters
  simp only [harg, hfn, hlast, factoryParamEdits]
  rw [foldl_appendLeft_eq]

end UmdLemmas

section ClaimsUmd

/-- C3: on a UMD module whose wrapper has a first statement and whose wrapper
call carries a factory function with at least one parameter, `addImports`
produces exactly the four per-branch edit families, each contributing one edit
per import: `require(...)` arguments at the close of the detected CommonJS
factory call, quoted specifiers at the close of the detected AMD definition
array, `global.<id>` arguments at the close of the detected global factory
call, and trailing factory parameters after the last existing parameter.  Each
family is empty exactly when its branch is not detected, so a wrapper lacking
a branch skips that branch's insertions while the others still occur. -/
theorem C3_addImports_per_branch_edits (umd : UmdModule) (output : MagicStr)
    (imports : List Import) (s0 : Node)
    (hs0 : wrapperStmt0 umd.wrapperFn = some s0)
    (cp ce : Nat) (cf : Node) (cargs : NodeList)
    (hpar : umd.wrapperParent = Node.call cp ce cf cargs)
    (secondArg : Node) (harg : cargs.get? 1 = some secondArg)
    (fp fe : Nat) (fparams : List Param) (fbody : Node)
    (hfn : unParen secondArg = Node.functionExpr fp fe fparams fbody)
    (lastParam : Param) (hlast : fparams.getLast? = some lastParam) :
    UmdRenderingFormatter.addImports output imports (some umd) =
      some ⟨output.original,
        output.edits ++
          requireCallEdits
            (findNode isCommonJSConditional (wrapperAnc umd.wrapperFn) s0) imports ++
          amdDefineEdits
            (findNode isAmdConditional (wrapperAnc umd.wrapperFn) s0) imports ++
          globalFactoryEdits
            (findNode isGlobalFactoryCall (wrapperAnc umd.wrapperFn) s0) imports ++
          factoryParamEdits lastParam imports⟩ := by
  simp only [UmdRenderingFormatter.addImports]
  rw [renderCommonJs_char _ _ _ _ hs0, Option.some_bind,
    renderAmd_char _ _ _ _ hs0, Option.some_bind,
    renderGlobal_char _ _ _ _ hs0, Option.some_bind, hpar,
    renderFactoryParams_char _ imports cp ce cf cargs secondArg harg fp fe
      fparams fbody hfn lastParam hlast]

/-- C4: when no UMD wrapper is detected (`getUmdModule` yields nothing),
`addImports`, `addExports` and `addConstants` all return the text-surgery
buffer unchanged and raise no error. -/
theorem C4_no_wrapper_noop (output : MagicStr) (imports : List Import)
    (entryPointBasePath : String) (exports : List ExportInfo)
    (importManager : ImportManager) (constants : String) :
    UmdRenderingFormatter.addImports output imports none = some output ∧
    UmdRenderingFormatter.addExports output entryPointBasePath exports importManager none = some output ∧
    UmdRenderingFormatter.addConstants output constants none = some output := by
  refine ⟨rfl, rfl, ?_⟩
  unfold UmdRenderingFormatter.addConstants
  split <;> rfl

/-- C10: `renderFactoryParameters` reaches the factory function through the
wrapper call's second argument and indexes its parameter list at
`length - 1` with no emptiness guard: with at least one parameter the access
is in bounds and the edits are appended after the last parameter (the
out-of-bounds branch is unreachable), while with zero parameters nothing
guards the access and the embedding's fault branch is reached. -/
theorem C10_factory_param_indexing (output : MagicStr) (imports : List Import)
    (cp ce : Nat) (cf : Node) (cargs : NodeList) (secondArg : Node)
    (harg : cargs.get? 1 = some secondArg)
    (fp fe : Nat) (fparams : List Param) (fbody : Node)
    (hfn : unParen secondArg = Node.functionExpr fp fe fparams fbody) :
    (fparams ≠ [] → ∃ lastParam, fparams.getLast? = some lastParam ∧
      renderFactoryParameters output (Node.call cp ce cf cargs) imports =
        some ⟨output.original,
          output.edits ++ factoryParamEdits lastParam imports⟩) ∧
    (fparams = [] →
      renderFactoryParameters output (Node.call cp ce cf cargs) imports =
        none) := by
  constructor
  · intro hne
    exact ⟨fparams.getLast hne, List.getLast?_eq_getLast fparams hne,
      renderFactoryParams_char output imports cp ce cf cargs secondArg harg
        fp fe fparams fbody hfn _ (List.getLast?_eq_getLast fparams hne)⟩
  · intro hnil
    subst hnil
    simp [renderFactoryParameters, harg, hfn]

/-- C3 witness: on the concrete universal wrapper with two imports, the four
branch edits evaluate to the eight concrete insertions. -/
theorem C3_witness :
    UmdRenderingFormatter.addImports ⟨"src", []⟩ exImports (some exUmdModule) =
      some ⟨"src",
        [⟨119, EditSide.left, ",require('@angular/core')"⟩,
         ⟨119, EditSide.left, ",require('tslib')"⟩,
         ⟨203, EditSide.left, ",'@angular/core'"⟩,
         ⟨203, EditSide.left, ",'tslib'"⟩,
         ⟨277, EditSide.left, ",global.ng.core"⟩,
         ⟨277, EditSide.left, ",global.tslib"⟩,
         ⟨319, EditSide.left, ",core"⟩,
         ⟨319, EditSide.left, ",tslib_1"⟩]⟩ :=
  (C3_addImports_per_branch_edits exUmdModule ⟨"src", []⟩ exImports exStmt0
    (by decide) 0 345 exWrapperFn exWrapperArgs (by decide) exFactoryFn
    (by decide) 295 340 exFactoryParams exFactoryBody (by decide)
    ⟨"tslib", 314, 319⟩ (by decide)).trans (by decide)

/-- C10 witness: the factory-parameter indexing theorem applied to the
concrete wrapper call, whose factory function has two parameters. -/
theorem C10_witness :
    (exFactoryParams ≠ [] → ∃ lastParam,
      exFactoryParams.getLast? = some lastParam ∧
      renderFactoryParameters ⟨"src", []⟩ (Node.call 0 345 exWrapperFn
        exWrapperArgs) exImports =
        some ⟨"src", [] ++ factoryParamEdits lastParam exImports⟩) ∧
    (exFactoryParams = [] →
      renderFactoryParameters ⟨"src", []⟩ (Node.call 0 345 exWrapperFn
        exWrapperArgs) exImports = none) :=
  C10_factory_param_indexing ⟨"src", []⟩ exImports 0 345 exWrapperFn
    exWrapperArgs exFactoryFn (by decide) 295 340 exFactoryParams exFactoryBody
    (by decide)

end ClaimsUmd

section IncrementalStateLemmas

theorem mem_setAdd {s : List SourceFile} {f x : SourceFile} :
    x ∈ setAdd s f ↔ x ∈ s ∨ x = f := by
  unfold setAdd
  by_cases h : f ∈ s
  · simp only [if_pos h]
    constructor
    · exact fun hx => Or.inl hx
    · rintro (hx | rfl)
      · exact hx
      · exact h
  · simp [if_neg h]

theorem mem_toSet_aux {xs : List SourceFile} {acc : List SourceFile} {x : SourceFile} :
    x ∈ xs.foldl setAdd acc ↔ x ∈ acc ∨ x ∈ xs := by
  induction xs generalizing acc with
  | nil => simp
  | cons y ys ih =>
    simp only [List.foldl_cons, ih, mem_setAdd, List.mem_cons]
    tauto

theorem mem_toSet {xs : List SourceFile} {x : SourceFile} :
    x ∈ toSet xs ↔ x ∈ xs := by
  unfold toSet; rw [mem_toSet_aux]; simp

theorem optOr_idem {α : Type} (a b : Option α) : optOr a (optOr a b) = optOr a b := by
  cases a <;> simp [optOr]

theorem mapGet_mapSet_self {κ α : Type} [DecidableEq κ] (m : List (κ × α)) (k : κ) (v : α) :
    mapGet (mapSet m k v) k = some v := by
  induction m with
  | nil => simp [mapGet, mapSet, List.find?]
  | cons e rest ih =>
    by_cases h : e.1 = k
    · simp [mapGet, mapSet, h, List.find?]
    · simp only [mapSet, if_neg h]
      simpa [mapGet, List.find?, h] using ih

theorem mapGet_mapSet_ne {κ α : Type} [DecidableEq κ] (m : List (κ × α)) (k k' : κ) (v : α)
    (h : k' ≠ k) : mapGet (mapSet m k v) k' = mapGet m k' := by
  induction m with
  | nil => simp [mapGet, mapSet, List.find?, Ne.symm h]
  | cons e rest ih =>
    by_cases he : e.1 = k
    · subst he
      simp [mapGet, mapSet, List.find?, h, Ne.symm h]
    · simp only [mapSet, if_neg he]
      by_cases he' : e.1 = k'
      · simp [mapGet, List.find?, he']
      · simpa [mapGet, List.find?, he'] using ih

theorem mem_mapSet {κ α : Type} [DecidableEq κ] {m : List (κ × α)} {k : κ} {v : α}
    {e : κ × α} (h : e ∈ mapSet m k v) : e = (k, v) ∨ e ∈ m := by
  induction m with
  | nil => simpa [mapSet] using h
  | cons f rest ih =>
    by_cases hf : f.1 = k
    · simp only [mapSet, if_pos hf, List.mem_cons] at h
      rcases h with h | h
      · exact Or.inl h
      · exact Or.inr (List.mem_cons_of_mem _ h)
    · simp only [mapSet, if_neg hf, List.mem_cons] at h
      rcases h with h | h
      · exact Or.inr (by simp [h])
      · rcases ih h with h' | h'
        · exact Or.inl h'
        · exact Or.inr (List.mem_cons_of_mem _ h')

theorem reconcileGo_mem_unchanged (previousState : IncrementalState)
    (oldFiles newFiles : List SourceFile) (l : List SourceFile)
    (hnd : ∀ f ∈ l, f ∉ oldFiles → f.isDeclarationFile = false) :
    ∀ (u : List SourceFile) (m : List (SourceFile × FileMetadata)) (x : SourceFile),
      x ∈ (reconcileGo previousState oldFiles newFiles l u m).unchangedFiles ↔
        x ∈ u ∨ (x ∈ l ∧ unchangedCrit previousState oldFiles newFiles x) := by
  induction l with
  | nil => intro u m x; simp [reconcileGo]
  | cons f rest ih =>
    intro u m x
    have hndr : ∀ g ∈ rest, g ∉ oldFiles → g.isDeclarationFile = false :=
      fun g hg => hnd g (List.mem_cons_of_mem _ hg)
    by_cases hold : f ∈ oldFiles
    · by_cases hdep : ∀ d ∈ previousState.getFileDependencies f, d ∈ newFiles
      · have hall : (previousState.getFileDependencies f).all
            (fun oldDep => decide (oldDep ∈ newFiles)) = true := by
          rw [List.all_eq_true]; intro d hd; exact decide_eq_true (hdep d hd)
        have hcrit : unchangedCrit previousState oldFiles newFiles f := ⟨hold, hdep⟩
        simp only [reconcileGo, if_pos hold, if_pos hall]
        rw [ih hndr]
        rw [mem_setAdd]
        constructor
        · rintro ((hx | rfl) | ⟨hxl, hc⟩)
          · exact Or.inl hx
          · exact Or.inr ⟨List.mem_cons_self _ _, hcrit⟩
          · exact Or.inr ⟨List.mem_cons_of_mem _ hxl, hc⟩
        · rintro (hx | ⟨hxl, hc⟩)
          · exact Or.inl (Or.inl hx)
          · rcases List.mem_cons.mp hxl with rfl | hxr
            · exact Or.inl (Or.inr rfl)
            · exact Or.inr ⟨hxr, hc⟩
      · have hall : ¬ ((previousState.getFileDependencies f).all
            (fun oldDep => decide (oldDep ∈ newFiles)) = true) := by
          rw [List.all_eq_true]
          intro hcon
          exact hdep (fun d hd => of_decide_eq_true (hcon d hd))
        simp only [reconcileGo, if_pos hold, if_neg hall]
        rw [ih hndr]
        constructor
        · rintro (hx | ⟨hxl, hc⟩)
          · exact Or.inl hx
          · exact Or.inr ⟨List.mem_cons_of_mem _ hxl, hc⟩
        · rintro (hx | ⟨hxl, hc⟩)
          · exact Or.inl hx
          · rcases List.mem_cons.mp hxl with rfl | hxr
            · exact absurd hc.2 hdep
            · exact Or.inr ⟨hxr, hc⟩
    · have hdecl : f.isDeclarationFile = false := hnd f (List.mem_cons_self _ _) hold
      simp only [reconcileGo, if_neg hold,
        if_neg (show ¬ (f.isDeclarationFile = true) by simp [hdecl])]
      rw [ih hndr]
      constructor
      · rintro (hx | ⟨hxl, hc⟩)
        · exact Or.inl hx
        · exact Or.inr ⟨List.mem_cons_of_mem _ hxl, hc⟩
      · rintro (hx | ⟨hxl, hc⟩)
        · exact Or.inl hx
        · rcases List.mem_cons.mp hxl with rfl | hxr
          · exact absurd hc.1 hold
          · exact Or.inr ⟨hxr, hc⟩

theorem reconcileGo_mapGet_metadata (previousState : IncrementalState)
    (oldFiles newFiles : List SourceFile) (l : List SourceFile)
    (hnd : ∀ f ∈ l, f ∉ oldFiles → f.isDeclarationFile = false) :
    ∀ (u : List SourceFile) (m : List (SourceFile × FileMetadata)) (x : SourceFile),
      mapGet (reconcileGo previousState oldFiles newFiles l u m).metadata x =
        if x ∈ l ∧ unchangedCrit previousState oldFiles newFiles x
        then optOr (mapGet previousState.metadata x) (mapGet m x)
        else mapGet m x := by
  induction l with
  | nil => intro u m x; simp [reconcileGo]
  | cons f rest ih =>
    intro u m x
    have hndr : ∀ g ∈ rest, g ∉ oldFiles → g.isDeclarationFile = false :=
      fun g hg => hnd g (List.mem_cons_of_mem _ hg)
    by_cases hold : f ∈ oldFiles
    · by_cases hdep : ∀ d ∈ previousState.getFileDependencies f, d ∈ newFiles
      · have hall : (previousState.getFileDependencies f).all
            (fun oldDep => decide (oldDep ∈ newFiles)) = true := by
          rw [List.all_eq_true]; intro d hd; exact decide_eq_true (hdep d hd)
        have hcrit : unchangedCrit previousState oldFiles newFiles f := ⟨hold, hdep⟩
        simp only [reconcileGo, if_pos hold, if_pos hall]
        rw [ih hndr]
        by_cases hxf : x = f
        · subst hxf
          have hm1 : mapGet
              (match mapGet previousState.metadata x with
               | some meta => mapSet m x meta
               | none => m) x = optOr (mapGet previousState.metadata x) (mapGet m x) := by
            cases hpm : mapGet previousState.metadata x with
            | none => simp [optOr]
            | some meta => simp [optOr, mapGet_mapSet_self]
          by_cases hxr : x ∈ rest
          · rw [if_pos ⟨hxr, hcrit⟩, if_pos ⟨List.mem_cons_self _ _, hcrit⟩, hm1,
              optOr_idem]
          · rw [if_neg (by tauto), if_pos ⟨List.mem_cons_self _ _, hcrit⟩, hm1]
        · have hm1 : mapGet
              (match mapGet previousState.metadata f with
               | some meta => mapSet m f meta
               | none => m) x = mapGet m x := by
            cases hpm : mapGet previousState.metadata f with
            | none => simp
            | some meta => simp [mapGet_mapSet_ne _ _ _ _ hxf]
          rw [hm1]
          by_cases hxc : x ∈ rest ∧ unchangedCrit previousState oldFiles newFiles x
          · rw [if_pos hxc, if_pos ⟨List.mem_cons_of_mem _ hxc.1, hxc.2⟩]
          · rw [if_neg hxc, if_neg (by
              rintro ⟨hxl, hc⟩
              rcases List.mem_cons.mp hxl with rfl | hxr
              · exact hxf rfl
              · exact hxc ⟨hxr, hc⟩)]
      · have hall : ¬ ((previousState.getFileDependencies f).all
            (fun oldDep => decide (oldDep ∈ newFiles)) = true) := by
          rw [List.all_eq_true]
          intro hcon
          exact hdep (fun d hd => of_decide_eq_true (hcon d hd))
        simp only [reconcileGo, if_pos hold, if_neg hall]
        rw [ih hndr]
        by_cases hxc : x ∈ rest ∧ unchangedCrit previousState oldFiles newFiles x
        · rw [if_pos hxc, if_pos ⟨List.mem_cons_of_mem _ hxc.1, hxc.2⟩]
        · rw [if_neg hxc, if_neg (by
            rintro ⟨hxl, hc⟩
            rcases List.mem_cons.mp hxl with rfl | hxr
            · exact hdep hc.2
            · exact hxc ⟨hxr, hc⟩)]
    · have hdecl : f.isDeclarationFile = false := hnd f (List.mem_cons_self _ _) hold
      simp only [reconcileGo, if_neg hold,
        if_neg (show ¬ (f.isDeclarationFile = true) by simp [hdecl])]
      rw [ih hndr]
      by_cases hxc : x ∈ rest ∧ unchangedCrit previousState oldFiles newFiles x
      · rw [if_pos hxc, if_pos ⟨List.mem_cons_of_mem _ hxc.1, hxc.2⟩]
      · rw [if_neg hxc, if_neg (by
          rintro ⟨hxl, hc⟩
          rcases List.mem_cons.mp hxl with rfl | hxr
          · exact hold hc.1
          · exact hxc ⟨hxr, hc⟩)]

theorem reconcileGo_fresh_of_newDecl (previousState : IncrementalState)
    (oldFiles newFiles : List SourceFile) (l : List SourceFile)
    (hx : ∃ x ∈ l, x.isDeclarationFile = true ∧ x ∉ oldFiles) :
    ∀ (u : List SourceFile) (m : List (SourceFile × FileMetadata)),
      reconcileGo previousState oldFiles newFiles l u m = IncrementalState.fresh := by
  induction l with
  | nil => rcases hx with ⟨x, hxl, _⟩; exact absurd hxl (List.not_mem_nil x)
  | cons f rest ih =>
    intro u m
    rcases hx with ⟨x, hxl, hxdecl, hxold⟩
    by_cases hold : f ∈ oldFiles
    · have hxr : x ∈ rest := by
        rcases List.mem_cons.mp hxl with rfl | hxr
        · exact absurd hold hxold
        · exact hxr
      by_cases hall : (previousState.getFileDependencies f).all
          (fun oldDep => decide (oldDep ∈ newFiles)) = true
      · simp only [reconcileGo, if_pos hold, if_pos hall]
        exact ih ⟨x, hxr, hxdecl, hxold⟩ _ _
      · simp only [reconcileGo, if_pos hold, if_neg hall]
        exact ih ⟨x, hxr, hxdecl, hxold⟩ _ _
    · by_cases hdecl : f.isDeclarationFile = true
      · simp only [reconcileGo, if_neg hold, if_pos hdecl]
      · have hxr : x ∈ rest := by
          rcases List.mem_cons.mp hxl with rfl | hxr
          · exact absurd hxdecl hdecl
          · exact hxr
        simp only [reconcileGo, if_neg hold, if_neg hdecl]
        exact ih ⟨x, hxr, hxdecl, hxold⟩ _ _

theorem reconcileGo_metadata_deps (previousState : IncrementalState)
    (oldFiles newFiles : List SourceFile) (l : List SourceFile) :
    ∀ (u : List SourceFile) (m : List (SourceFile × FileMetadata)),
      (∀ e ∈ m, ∀ d ∈ e.2.fileDependencies, d ∈ newFiles) →
      ∀ e ∈ (reconcileGo previousState oldFiles newFiles l u m).metadata,
        ∀ d ∈ e.2.fileDependencies, d ∈ newFiles := by
  induction l with
  | nil => intro u m hm; simpa [reconcileGo] using hm
  | cons f rest ih =>
    intro u m hm
    by_cases hold : f ∈ oldFiles
    · by_cases hall : (previousState.getFileDependencies f).all
          (fun oldDep => decide (oldDep ∈ newFiles)) = true
      · simp only [reconcileGo, if_pos hold, if_pos hall]
        apply ih
        cases hpm : mapGet previousState.metadata f with
        | none => simpa [hpm] using hm
        | some meta =>
          simp only [hpm]
          intro e he d hd
          rcases mem_mapSet he with rfl | he'
          · have hdeps : previousState.getFileDependencies f = meta.fileDependencies := by
              simp [IncrementalState.getFileDependencies, hpm]
            rw [List.all_eq_true] at hall
            exact of_decide_eq_true (hall d (by rw [hdeps]; exact hd))
          · exact hm e he' d hd
      · simp only [reconcileGo, if_pos hold, if_neg hall]
        exact ih _ _ hm
    · by_cases hdecl : f.isDeclarationFile = true
      · simp only [reconcileGo, if_neg hold, if_pos hdecl]
        intro e he
        simp [IncrementalState.fresh] at he
      · simp only [reconcileGo, if_neg hold, if_neg hdecl]
        exact ih _ _ hm

/-- Every dependency recorded in a reconciled state's metadata lies in the new
program's file set. -/
theorem reconcile_deps_mem (previousState : IncrementalState)
    (oldProgram newProgram : Program) (f d : SourceFile)
    (hd : d ∈ (IncrementalState.reconcile previousState oldProgram newProgram
      ).getFileDependencies f) :
    d ∈ newProgram.sourceFiles := by
  unfold IncrementalState.getFileDependencies at hd
  cases hmg : mapGet (IncrementalState.reconcile previousState oldProgram
      newProgram).metadata f with
  | none => rw [hmg] at hd; simp at hd
  | some meta =>
    rw [hmg] at hd
    unfold mapGet at hmg
    cases hf : (IncrementalState.reconcile previousState oldProgram
        newProgram).metadata.find? (fun e => decide (e.1 = f)) with
    | none => rw [hf] at hmg; simp at hmg
    | some e =>
      rw [hf] at hmg
      simp only [Option.map_some'] at hmg
      have hmem : e ∈ (IncrementalState.reconcile previousState oldProgram
          newProgram).metadata := List.mem_of_find?_eq_some hf
      have he2 : e.2 = meta := by simpa using hmg
      have hdep := reconcileGo_metadata_deps previousState (toSet oldProgram.sourceFiles)
        (toSet newProgram.sourceFiles) newProgram.sourceFiles [] []
        (by intro e he; simp at he) e hmem d (by rw [he2]; simpa using hd)
      exact mem_toSet.mp hdep

theorem optOr_none_right {α : Type} (a : Option α) : optOr a none = a := by
  cases a <;> simp [optOr]

theorem noDecl_transport {oldProgram newProgram : Program}
    (hnd : ∀ f ∈ newProgram.sourceFiles, f.isDeclarationFile = true →
      f ∈ oldProgram.sourceFiles) :
    ∀ g ∈ newProgram.sourceFiles, g ∉ toSet oldProgram.sourceFiles →
      g.isDeclarationFile = false := by
  intro g hg hgo
  cases hb : g.isDeclarationFile with
  | false => rfl
  | true => exact absurd (mem_toSet.mpr (hnd g hg hb)) hgo

theorem crit_iff (previousState : IncrementalState) (oldProgram newProgram : Program)
    (x : SourceFile) :
    unchangedCrit previousState (toSet oldProgram.sourceFiles)
      (toSet newProgram.sourceFiles) x ↔
    x ∈ oldProgram.sourceFiles ∧
      ∀ d ∈ previousState.getFileDependencies x, d ∈ newProgram.sourceFiles := by
  unfold unchangedCrit
  constructor
  · rintro ⟨h1, h2⟩
    exact ⟨mem_toSet.mp h1, fun d hd => mem_toSet.mp (h2 d hd)⟩
  · rintro ⟨h1, h2⟩
    exact ⟨mem_toSet.mpr h1, fun d hd => mem_toSet.mpr (h2 d hd)⟩

end IncrementalStateLemmas

section ClaimsIncrementalState

/-- C1 counterexample: with a previous state `fresh`, an old program holding a
single non-declaration file and a new program holding that file plus a newly
appeared declaration file, the file satisfies the stated right-hand side
(present in the old file set, all recorded dependencies present in the new file
set) yet `reconcile` does not mark it unchanged, because the new declaration
file forces a fresh state. -/
theorem C1_counterexample :
    ¬ (((IncrementalState.fresh).reconcile ⟨[⟨0, false⟩]⟩
          ⟨[⟨0, false⟩, ⟨1, true⟩]⟩).safeToSkip ⟨0, false⟩ = true ↔
        ((⟨0, false⟩ : SourceFile) ∈ (⟨[⟨0, false⟩]⟩ : Program).sourceFiles ∧
          ∀ d ∈ IncrementalState.fresh.getFileDependencies ⟨0, false⟩,
            d ∈ (⟨[⟨0, false⟩, ⟨1, true⟩]⟩ : Program).sourceFiles)) := by
  decide

/-- C1 (amended): provided no declaration file of the new program is newly
appeared (absent from the old program's file set), `reconcile` marks a file
unchanged iff it is a file of the new program, was in the old program's file
set, and every dependency recorded for it by the previous state is in the new
program's file set; exactly for those files the previously cached metadata
entry is carried over, and no other file gets an entry. -/
theorem C1_unchanged_iff_and_metadata_carry (previousState : IncrementalState)
    (oldProgram newProgram : Program)
    (hnd : ∀ f ∈ newProgram.sourceFiles, f.isDeclarationFile = true →
      f ∈ oldProgram.sourceFiles) :
    ∀ f : SourceFile,
      ((IncrementalState.reconcile previousState oldProgram newProgram).safeToSkip f
          = true ↔
        f ∈ newProgram.sourceFiles ∧ f ∈ oldProgram.sourceFiles ∧
          ∀ d ∈ previousState.getFileDependencies f, d ∈ newProgram.sourceFiles) ∧
      (mapGet (IncrementalState.reconcile previousState oldProgram
          newProgram).metadata f =
        if f ∈ newProgram.sourceFiles ∧ f ∈ oldProgram.sourceFiles ∧
            ∀ d ∈ previousState.getFileDependencies f, d ∈ newProgram.sourceFiles
        then mapGet previousState.metadata f else none) := by
  intro f
  have hnd' := noDecl_transport hnd
  constructor
  · simp only [IncrementalState.safeToSkip, decide_eq_true_eq]
    rw [show IncrementalState.reconcile previousState oldProgram newProgram =
      reconcileGo previousState (toSet oldProgram.sourceFiles)
        (toSet newProgram.sourceFiles) newProgram.sourceFiles [] [] from rfl]
    rw [reconcileGo_mem_unchanged previousState _ _ _ hnd']
    rw [crit_iff]
    simp [and_assoc]
  · rw [show IncrementalState.reconcile previousState oldProgram newProgram =
      reconcileGo previousState (toSet oldProgram.sourceFiles)
        (toSet newProgram.sourceFiles) newProgram.sourceFiles [] [] from rfl]
    rw [reconcileGo_mapGet_metadata previousState _ _ _ hnd']
    by_cases hc : f ∈ newProgram.sourceFiles ∧ f ∈ oldProgram.sourceFiles ∧
        ∀ d ∈ previousState.getFileDependencies f, d ∈ newProgram.sourceFiles
    · rw [if_pos hc, if_pos ⟨hc.1, (crit_iff previousState oldProgram newProgram f).mpr
        ⟨hc.2.1, hc.2.2⟩⟩]
      simp [mapGet, optOr_none_right]
    · rw [if_neg hc, if_neg (by
        rintro ⟨h1, h2⟩
        exact hc ⟨h1, ((crit_iff previousState oldProgram newProgram f).mp h2).1,
          ((crit_iff previousState oldProgram newProgram f).mp h2).2⟩)]
      simp [mapGet]

/-- C1 witness: the amended theorem applied to a concrete previous state with
one recorded metadata entry and concrete old/new programs with no newly
appeared declaration file, instantiated at the carried-over file. -/
theorem C1_witness :
    ((IncrementalState.reconcile
        ⟨[], [(⟨0, false⟩, ⟨[⟨0, false⟩], [], [], []⟩)]⟩
        ⟨[⟨0, false⟩, ⟨2, false⟩]⟩ ⟨[⟨0, false⟩]⟩).safeToSkip ⟨0, false⟩ = true ↔
      (⟨0, false⟩ : SourceFile) ∈ (⟨[⟨0, false⟩]⟩ : Program).sourceFiles ∧
        (⟨0, false⟩ : SourceFile) ∈
          (⟨[⟨0, false⟩, ⟨2, false⟩]⟩ : Program).sourceFiles ∧
        ∀ d ∈ (⟨[], [(⟨0, false⟩, ⟨[⟨0, false⟩], [], [], []⟩)]⟩ :
            IncrementalState).getFileDependencies ⟨0, false⟩,
          d ∈ (⟨[⟨0, false⟩]⟩ : Program).sourceFiles) ∧
    (mapGet (IncrementalState.reconcile
        ⟨[], [(⟨0, false⟩, ⟨[⟨0, false⟩], [], [], []⟩)]⟩
        ⟨[⟨0, false⟩, ⟨2, false⟩]⟩ ⟨[⟨0, false⟩]⟩).metadata ⟨0, false⟩ =
      if (⟨0, false⟩ : SourceFile) ∈ (⟨[⟨0, false⟩]⟩ : Program).sourceFiles ∧
          (⟨0, false⟩ : SourceFile) ∈
            (⟨[⟨0, false⟩, ⟨2, false⟩]⟩ : Program).sourceFiles ∧
          ∀ d ∈ (⟨[], [(⟨0, false⟩, ⟨[⟨0, false⟩], [], [], []⟩)]⟩ :
              IncrementalState).getFileDependencies ⟨0, false⟩,
            d ∈ (⟨[⟨0, false⟩]⟩ : Program).sourceFiles
      then mapGet (⟨[], [(⟨0, false⟩, ⟨[⟨0, false⟩], [], [], []⟩)]⟩ :
          IncrementalState).metadata ⟨0, false⟩
      else none) :=
  C1_unchanged_iff_and_metadata_carry
    ⟨[], [(⟨0, false⟩, ⟨[⟨0, false⟩], [], [], []⟩)]⟩
    ⟨[⟨0, false⟩, ⟨2, false⟩]⟩ ⟨[⟨0, false⟩]⟩ (by decide) ⟨0, false⟩

/-- C2: if the new program contains a declaration file absent from the old
program's file set, `reconcile` returns the fresh empty state: no file is safe
to skip and every file's recorded dependency list is empty. -/
theorem C2_new_declaration_forces_fresh (previousState : IncrementalState)
    (oldProgram newProgram : Program) (d : SourceFile)
    (hd : d ∈ newProgram.sourceFiles) (hdecl : d.isDeclarationFile = true)
    (hnot : d ∉ oldProgram.sourceFiles) :
    IncrementalState.reconcile previousState oldProgram newProgram =
        IncrementalState.fresh ∧
      (∀ f, (IncrementalState.reconcile previousState oldProgram
        newProgram).safeToSkip f = false) ∧
      (∀ f, (IncrementalState.reconcile previousState oldProgram
        newProgram).getFileDependencies f = []) := by
  have hfresh : IncrementalState.reconcile previousState oldProgram newProgram =
      IncrementalState.fresh :=
    reconcileGo_fresh_of_newDecl previousState (toSet oldProgram.sourceFiles)
      (toSet newProgram.sourceFiles) newProgram.sourceFiles
      ⟨d, hd, hdecl, fun hc => hnot (mem_toSet.mp hc)⟩ [] []
  refine ⟨hfresh, ?_, ?_⟩
  · intro f
    rw [hfresh]
    simp [IncrementalState.safeToSkip, IncrementalState.fresh]
  · intro f
    rw [hfresh]
    simp [IncrementalState.getFileDependencies, IncrementalState.fresh, mapGet]

/-- C2 witness: the theorem applied to a previous state with cached data, an
empty old program and a new program consisting of one declaration file. -/
theorem C2_witness :
    IncrementalState.reconcile ⟨[⟨0, false⟩], []⟩ ⟨[]⟩ ⟨[⟨1, true⟩]⟩ =
        IncrementalState.fresh ∧
      (∀ f, (IncrementalState.reconcile ⟨[⟨0, false⟩], []⟩ ⟨[]⟩
        ⟨[⟨1, true⟩]⟩).safeToSkip f = false) ∧
      (∀ f, (IncrementalState.reconcile ⟨[⟨0, false⟩], []⟩ ⟨[]⟩
        ⟨[⟨1, true⟩]⟩).getFileDependencies f = []) :=
  C2_new_declaration_forces_fresh ⟨[⟨0, false⟩], []⟩ ⟨[]⟩ ⟨[⟨1, true⟩]⟩ ⟨1, true⟩
    (by decide) (by decide) (by decide)

/-- C5: reconciliation is idempotent on a no-op second pass: if `s` was
produced by reconciling into program `p`, then reconciling `s` against
identical old/new programs `p` marks exactly the files of `p` unchanged. -/
theorem C5_reconcile_idempotent (previousState : IncrementalState)
    (oldProgram p : Program) (s : IncrementalState)
    (hs : s = IncrementalState.reconcile previousState oldProgram p) :
    ∀ f, ((IncrementalState.reconcile s p p).safeToSkip f = true ↔
      f ∈ p.sourceFiles) := by
  intro f
  have hnd' : ∀ g ∈ p.sourceFiles, g ∉ toSet p.sourceFiles →
      g.isDeclarationFile = false := by
    intro g hg hgo
    exact absurd (mem_toSet.mpr hg) hgo
  simp only [IncrementalState.safeToSkip, decide_eq_true_eq]
  rw [show IncrementalState.reconcile s p p =
    reconcileGo s (toSet p.sourceFiles) (toSet p.sourceFiles) p.sourceFiles [] []
    from rfl]
  rw [reconcileGo_mem_unchanged s _ _ _ hnd']
  constructor
  · rintro (h | ⟨h, _⟩)
    · simp at h
    · exact h
  · intro hf
    refine Or.inr ⟨hf, mem_toSet.mpr hf, ?_⟩
    intro dep hdep
    subst hs
    exact mem_toSet.mpr (reconcile_deps_mem previousState oldProgram p f dep hdep)

/-- C5 witness: the theorem applied to a state freshly reconciled from a
previous state with a recorded dependency, against a concrete program. -/
theorem C5_witness :
    ((IncrementalState.reconcile
        (IncrementalState.reconcile
          ⟨[], [(⟨0, false⟩, ⟨[⟨1, false⟩], [], [], []⟩)]⟩
          ⟨[⟨0, false⟩, ⟨1, false⟩]⟩ ⟨[⟨0, false⟩, ⟨1, false⟩]⟩)
        ⟨[⟨0, false⟩, ⟨1, false⟩]⟩
        ⟨[⟨0, false⟩, ⟨1, false⟩]⟩).safeToSkip ⟨0, false⟩ = true ↔
      (⟨0, false⟩ : SourceFile) ∈
        (⟨[⟨0, false⟩, ⟨1, false⟩]⟩ : Program).sourceFiles) :=
  C5_reconcile_idempotent ⟨[], [(⟨0, false⟩, ⟨[⟨1, false⟩], [], [], []⟩)]⟩
    ⟨[⟨0, false⟩, ⟨1, false⟩]⟩ ⟨[⟨0, false⟩, ⟨1, false⟩]⟩ _ rfl ⟨0, false⟩

end ClaimsIncrementalState

section StoreLemmas

theorem le_foldr_max {l : List Nat} {k : Nat} (h : k ∈ l) : k ≤ l.foldr max 0 := by
  induction l with
  | nil => simp at h
  | cons x xs ih =>
    rcases List.mem_cons.mp h with rfl | h'
    · exact le_max_left _ _
    · exact le_trans (ih h') (le_max_right _ _)

theorem freshRef_not_mem (store : StateStore) :
    freshRef store ∉ List.map (fun e => e.1) store := by
  intro h
  have h2 := le_foldr_max h
  unfold freshRef at h2
  omega

theorem mapGet_cons {κ α : Type} [DecidableEq κ] (e : κ × α) (m : List (κ × α))
    (k : κ) : mapGet (e :: m) k = if e.1 = k then some e.2 else mapGet m k := by
  by_cases he : e.1 = k
  · simp [mapGet, List.find?, he]
  · simp [mapGet, List.find?, he]

theorem mapGet_mem_keys {κ α : Type} [DecidableEq κ] {m : List (κ × α)} {k : κ}
    {v : α} (h : mapGet m k = some v) : k ∈ List.map (fun e => e.1) m := by
  induction m with
  | nil => simp [mapGet] at h
  | cons e rest ih =>
    rw [mapGet_cons] at h
    by_cases he : e.1 = k
    · simp [he]
    · rw [if_neg he] at h
      simp only [List.map_cons, List.mem_cons]
      exact Or.inr (ih h)

theorem mapGet_append_singleton_ne {κ α : Type} [DecidableEq κ]
    (m : List (κ × α)) (r k : κ) (v : α) (h : k ≠ r) :
    mapGet (m ++ [(r, v)]) k = mapGet m k := by
  induction m with
  | nil => simp [mapGet, List.find?, Ne.symm h]
  | cons e rest ih =>
    rw [List.cons_append, mapGet_cons, mapGet_cons, ih]

theorem mapGet_not_mem_keys {κ α : Type} [DecidableEq κ] {m : List (κ × α)} {k : κ}
    (h : k ∉ List.map (fun e => e.1) m) : mapGet m k = none := by
  induction m with
  | nil => simp [mapGet]
  | cons e rest ih =>
    simp only [List.map_cons, List.mem_cons] at h
    push_neg at h
    rw [mapGet_cons, if_neg (Ne.symm h.1)]
    exact ih h.2

theorem mapGet_append_singleton_self {κ α : Type} [DecidableEq κ]
    (m : List (κ × α)) (r : κ) (v : α) (h : mapGet m r = none) :
    mapGet (m ++ [(r, v)]) r = some v := by
  induction m with
  | nil => simp [mapGet, List.find?]
  | cons e rest ih =>
    rw [mapGet_cons] at h
    by_cases he : e.1 = r
    · rw [if_pos he] at h; simp at h
    · rw [if_neg he] at h
      rw [List.cons_append, mapGet_cons, if_neg he]
      exact ih h

end StoreLemmas

section ClaimsFrameAndInject

/-- C6: `reconcile` never mutates the previous state and always returns a new
`IncrementalState` value: applied to a store through a valid reference, it
installs the reconciled state under a reference that did not exist before, and
each observation (`safeToSkip`, `getFileDependencies`, `getDirectiveMetadata`,
`getNgModuleMetadata`, `getPipeMetadata`) on the previous reference yields the
same result after the call as before it. -/
theorem C6_reconcile_no_mutation (store : StateStore) (prevRef : Nat)
    (oldProgram newProgram : Program) (prev : IncrementalState)
    (h : mapGet store prevRef = some prev) :
    ∃ store' r, reconcileInStore store prevRef oldProgram newProgram =
        some (store', r) ∧
      r ∉ List.map (fun e => e.1) store ∧
      mapGet store' r =
        some (IncrementalState.reconcile prev oldProgram newProgram) ∧
      (∀ sf, storeSafeToSkip store' prevRef sf = storeSafeToSkip store prevRef sf) ∧
      (∀ f, storeGetFileDependencies store' prevRef f =
        storeGetFileDependencies store prevRef f) ∧
      (∀ ref, storeGetDirectiveMetadata store' prevRef ref =
        storeGetDirectiveMetadata store prevRef ref) ∧
      (∀ ref, storeGetNgModuleMetadata store' prevRef ref =
        storeGetNgModuleMetadata store prevRef ref) ∧
      (∀ ref, storeGetPipeMetadata store' prevRef ref =
        storeGetPipeMetadata store prevRef ref) := by
  have hne : prevRef ≠ freshRef store := by
    intro hq
    exact freshRef_not_mem store (hq ▸ mapGet_mem_keys h)
  have hkeep : mapGet (store ++ [(freshRef store,
      IncrementalState.reconcile prev oldProgram newProgram)]) prevRef =
      mapGet store prevRef :=
    mapGet_append_singleton_ne store _ prevRef _ hne
  refine ⟨store ++ [(freshRef store,
    IncrementalState.reconcile prev oldProgram newProgram)], freshRef store,
    ?_, freshRef_not_mem store, ?_, ?_, ?_, ?_, ?_, ?_⟩
  · simp [reconcileInStore, h]
  · exact mapGet_append_singleton_self store _ _
      (mapGet_not_mem_keys (freshRef_not_mem store))
  · intro sf; simp [storeSafeToSkip, hkeep]
  · intro f; simp [storeGetFileDependencies, hkeep]
  · intro ref; simp [storeGetDirectiveMetadata, hkeep]
  · intro ref; simp [storeGetNgModuleMetadata, hkeep]
  · intro ref; simp [storeGetPipeMetadata, hkeep]

/-- C6 witness: the theorem applied to a one-entry store holding a state with
an unchanged file, and concrete old/new programs. -/
theorem C6_witness :
    ∃ store' r, reconcileInStore [(7, ⟨[⟨0, false⟩], []⟩)] 7
        ⟨[⟨0, false⟩]⟩ ⟨[⟨0, false⟩]⟩ = some (store', r) ∧
      r ∉ List.map (fun e => e.1) ([(7, ⟨[⟨0, false⟩], []⟩)] : StateStore) ∧
      mapGet store' r = some (IncrementalState.reconcile ⟨[⟨0, false⟩], []⟩
        ⟨[⟨0, false⟩]⟩ ⟨[⟨0, false⟩]⟩) ∧
      (∀ sf, storeSafeToSkip store' 7 sf =
        storeSafeToSkip [(7, ⟨[⟨0, false⟩], []⟩)] 7 sf) ∧
      (∀ f, storeGetFileDependencies store' 7 f =
        storeGetFileDependencies [(7, ⟨[⟨0, false⟩], []⟩)] 7 f) ∧
      (∀ ref, storeGetDirectiveMetadata store' 7 ref =
        storeGetDirectiveMetadata [(7, ⟨[⟨0, false⟩], []⟩)] 7 ref) ∧
      (∀ ref, storeGetNgModuleMetadata store' 7 ref =
        storeGetNgModuleMetadata [(7, ⟨[⟨0, false⟩], []⟩)] 7 ref) ∧
      (∀ ref, storeGetPipeMetadata store' 7 ref =
        storeGetPipeMetadata [(7, ⟨[⟨0, false⟩], []⟩)] 7 ref) :=
  C6_reconcile_no_mutation [(7, ⟨[⟨0, false⟩], []⟩)] 7
    ⟨[⟨0, false⟩]⟩ ⟨[⟨0, false⟩]⟩ ⟨[⟨0, false⟩], []⟩ (by decide)

/-- C9: `setInjectImplementation v` makes `getInjectImplementation` return `v`
and returns the previously current implementation, and re-installing the
returned value restores the original result of `getInjectImplementation` (the
swap is a round trip). -/
theorem C9_inject_swap_roundtrip
    (v state : Option InjectImplementation) :
    getInjectImplementation (setInjectImplementation v state).2 = v ∧
    (setInjectImplementation v state).1 = getInjectImplementation state ∧
    getInjectImplementation
      (setInjectImplementation (setInjectImplementation v state).1
        (setInjectImplementation v state).2).2 =
      getInjectImplementation state :=
  ⟨rfl, rfl, rfl⟩

end ClaimsFrameAndInject
